import Mathlib

/-!
Verification development for the walrus in-memory key-value server.

The Rust sources are shallowly embedded as executable Lean definitions:

* bytes (`u8`) are `Nat` (values < 256 on real inputs; arithmetic on lengths
  uses `Nat`, matching 64-bit `usize` for all inputs small enough to exist);
* a Rust `String` is represented by the list of its UTF-8 bytes;
* the byte cursor (`std::io::Cursor<&[u8]>`) is represented by the list of
  bytes remaining after the cursor position, functions consume from the
  front and return the remaining suffix; "final cursor position" of the
  original code corresponds to the returned suffix;
* fallible code returns explicit result inductives; the two places where the
  Rust code can abort (the out-of-bounds assertion inside
  `bytes::Buf::advance` for `Cursor`, reached through `frame.rs::skip`, and
  the `unimplemented!()` arm of `Frame::parse`) are modelled by a dedicated
  `panic` result constructor.
-/

/-- UTF-8 bytes of an ASCII string literal (used for the ASCII constants of
the source: command names, reply texts, error messages). -/
def strB (s : String) : List Nat := s.data.map Char.toNat

/-- ASCII fragment of Rust `str::to_lowercase` (the source only compares
ASCII command/option tokens; the Unicode table is out of scope). -/
def asciiLower (l : List Nat) : List Nat :=
  l.map (fun c => if 65 ≤ c ∧ c ≤ 90 then c + 32 else c)

/-- ASCII fragment of Rust `str::to_uppercase`. -/
def asciiUpper (l : List Nat) : List Nat :=
  l.map (fun c => if 97 ≤ c ∧ c ≤ 122 then c - 32 else c)

/-- A UTF-8 continuation byte (`0x80..=0xBF`). -/
def isCont (b : Nat) : Bool := 128 ≤ b ∧ b ≤ 191

/-- Validity of a byte sequence as UTF-8, as checked by Rust
`String::from_utf8` / `str::from_utf8`. -/
def utf8Valid : List Nat → Bool
  | [] => true
  | b :: rest =>
    if b ≤ 127 then utf8Valid rest
    else if 194 ≤ b ∧ b ≤ 223 then
      match rest with
      | c1 :: rest1 => isCont c1 && utf8Valid rest1
      | [] => false
    else if b = 224 then
      match rest with
      | c1 :: c2 :: rest2 => (160 ≤ c1 ∧ c1 ≤ 191 : Bool) && isCont c2 && utf8Valid rest2
      | _ => false
    else if (225 ≤ b ∧ b ≤ 236) ∨ b = 238 ∨ b = 239 then
      match rest with
      | c1 :: c2 :: rest2 => isCont c1 && isCont c2 && utf8Valid rest2
      | _ => false
    else if b = 237 then
      match rest with
      | c1 :: c2 :: rest2 => (128 ≤ c1 ∧ c1 ≤ 159 : Bool) && isCont c2 && utf8Valid rest2
      | _ => false
    else if b = 240 then
      match rest with
      | c1 :: c2 :: c3 :: rest3 =>
        (144 ≤ c1 ∧ c1 ≤ 191 : Bool) && isCont c2 && isCont c3 && utf8Valid rest3
      | _ => false
    else if 241 ≤ b ∧ b ≤ 243 then
      match rest with
      | c1 :: c2 :: c3 :: rest3 => isCont c1 && isCont c2 && isCont c3 && utf8Valid rest3
      | _ => false
    else if b = 244 then
      match rest with
      | c1 :: c2 :: c3 :: rest3 =>
        (128 ≤ c1 ∧ c1 ≤ 143 : Bool) && isCont c2 && isCont c3 && utf8Valid rest3
      | _ => false
    else false

/-- `frame.rs`: the RESP frame type.  `Simple`/`Error` carry the UTF-8 bytes
of the Rust `String`, `Bulk` carries raw bytes, `Integer` a `u64`. -/
inductive Frame
  | Simple (s : List Nat)
  | Error (s : List Nat)
  | Integer (n : Nat)
  | Bulk (b : List Nat)
  | Null
  | Array (l : List Frame)
deriving Repr

namespace Frame

/-- Result of `frame.rs::Frame::check` over a byte window: the suffix left
after the cursor on success, `Error::Incomplete`, `Error::Other`
(protocol error), or an abort inside `bytes::Buf::advance`. -/
inductive CheckRes
  | ok (rest : List Nat)
  | incomplete
  | protoErr
  | panic
deriving DecidableEq, Repr

/-- Result of `frame.rs::Frame::parse`: the parsed frame plus remaining
suffix, `Error::Incomplete`, `Error::Other`, or an abort
(the `unimplemented!()` arm). -/
inductive ParseRes
  | ok (fr : Frame) (rest : List Nat)
  | incomplete
  | protoErr
  | panic
deriving Repr

/-- Index of the first CRLF window in a byte list (the
`windows(2).position(|w| w == b"\r\n")` search of `get_line`). -/
def findCRLF : List Nat → Option Nat
  | [] => none
  | [_] => none
  | a :: b :: t =>
    if a = 13 ∧ b = 10 then some 0
    else (findCRLF (b :: t)).map (· + 1)

/-- `frame.rs::get_line`: all bytes up to the next CRLF, plus the suffix
after the CRLF; `none` models `Error::Incomplete`. -/
def getLine (src : List Nat) : Option (List Nat × List Nat) :=
  match findCRLF src with
  | some i => some (src.take i, src.drop (i + 2))
  | none => none

/-- Numeric value of a big-endian list of ASCII digit bytes (the
accumulation loop of `atoi`). -/
def digitsVal (l : List Nat) : Nat :=
  l.foldl (fun acc d => acc * 10 + (d - 48)) 0

/-- An ASCII decimal digit byte. -/
def isDigit (b : Nat) : Bool := 48 ≤ b ∧ b ≤ 57

/-- `atoi::atoi::<u64>`: value of the leading run of decimal digits;
`none` if the input does not start with a digit or the value overflows
`u64`. -/
def atoi (l : List Nat) : Option Nat :=
  match l.takeWhile isDigit with
  | [] => none
  | ds => if digitsVal ds < 2 ^ 64 then some (digitsVal ds) else none

/-- `frame.rs::peek_u8`: the byte at the cursor without advancing;
`none` models `Error::Incomplete`. -/
def peekU8 : List Nat → Option Nat
  | [] => none
  | b :: _ => some b

/-- `frame.rs::skip`: checks only `has_remaining()` (at least one byte
left), then `bytes::Buf::advance(n)`, whose `Cursor` implementation
asserts that the new position is in bounds and aborts otherwise. -/
def skip (src : List Nat) (n : Nat) : CheckRes :=
  match src with
  | [] => .incomplete
  | _ :: _ =>
    if n ≤ src.length then .ok (src.drop n)
    else .panic

/-- Result of `frame.rs::get_decimal`. -/
inductive DecRes
  | ok (n : Nat) (rest : List Nat)
  | incomplete
  | protoErr
deriving Repr

/-- `frame.rs::get_decimal`: a CRLF-terminated line fed to `atoi`. -/
def getDecimal (src : List Nat) : DecRes :=
  match getLine src with
  | none => .incomplete
  | some (line, rest) =>
    match atoi line with
    | some n => .ok n rest
    | none => .protoErr

mutual

/-- `frame.rs::Frame::check`, fuel-indexed.  The fuel is decremented once
per frame entered; since every entry consumes at least the one tag byte,
fuel `src.length + 1` (used by the `check` wrapper) can never run out, and
the fuel-exhausted result coincides with what the code returns at an
exhausted cursor (`Incomplete` from `get_u8`). -/
def checkF : Nat → List Nat → CheckRes
  | 0, _ => .incomplete
  | _ + 1, [] => .incomplete
  | f + 1, b :: sub =>
    if b = 43 ∨ b = 45 then
      -- '+' or '-': get_line
      match getLine sub with
      | some (_, rest) => .ok rest
      | none => .incomplete
    else if b = 58 then
      -- ':': get_decimal
      match getDecimal sub with
      | .ok _ rest => .ok rest
      | .incomplete => .incomplete
      | .protoErr => .protoErr
    else if b = 36 then
      -- '$': peek; '-' means skip the 4 bytes of "-1\r\n"
      match peekU8 sub with
      | none => .incomplete
      | some c =>
        if c = 45 then skip sub 4
        else
          match getDecimal sub with
          | .ok n rest => skip rest (n + 2)
          | .incomplete => .incomplete
          | .protoErr => .protoErr
    else if b = 42 then
      -- '*': peek; '-' means skip "-1\r\n", else check each element
      match peekU8 sub with
      | none => .incomplete
      | some c =>
        if c = 45 then skip sub 4
        else
          match getDecimal sub with
          | .ok n rest => checkN f n rest
          | .incomplete => .incomplete
          | .protoErr => .protoErr
    else .protoErr

/-- The `for _ in 0..len { Frame::check(src)?; }` loop of the array arm. -/
def checkN : Nat → Nat → List Nat → CheckRes
  | _, 0, src => .ok src
  | f, n + 1, src =>
    match checkF f src with
    | .ok rest => checkN f n rest
    | e => e

end

mutual

/-- `frame.rs::Frame::parse`, fuel-indexed exactly like `checkF`. -/
def parseF : Nat → List Nat → ParseRes
  | 0, _ => .incomplete
  | _ + 1, [] => .incomplete
  | f + 1, b :: sub =>
    if b = 43 then
      -- '+': line, then String::from_utf8
      match getLine sub with
      | some (line, rest) =>
        if utf8Valid line then .ok (.Simple line) rest else .protoErr
      | none => .incomplete
    else if b = 45 then
      -- '-': line, then String::from_utf8
      match getLine sub with
      | some (line, rest) =>
        if utf8Valid line then .ok (.Error line) rest else .protoErr
      | none => .incomplete
    else if b = 58 then
      -- ':': get_decimal
      match getDecimal sub with
      | .ok n rest => .ok (.Integer n) rest
      | .incomplete => .incomplete
      | .protoErr => .protoErr
    else if b = 36 then
      -- '$': peek; '-' requires the line to be exactly "-1"
      match peekU8 sub with
      | none => .incomplete
      | some c =>
        if c = 45 then
          match getLine sub with
          | some (line, rest) =>
            if line = [45, 49] then .ok .Null rest else .protoErr
          | none => .incomplete
        else
          match getDecimal sub with
          | .ok n rest =>
            if rest.length < n + 2 then .incomplete
            else
              match skip rest (n + 2) with
              | .ok rest2 => .ok (.Bulk (rest.take n)) rest2
              | .incomplete => .incomplete
              | _ => .panic
          | .incomplete => .incomplete
          | .protoErr => .protoErr
    else if b = 42 then
      -- '*': peek; '-' requires "-1", else parse each element
      match peekU8 sub with
      | none => .incomplete
      | some c =>
        if c = 45 then
          match getLine sub with
          | some (line, rest) =>
            if line = [45, 49] then .ok .Null rest else .protoErr
          | none => .incomplete
        else
          match getDecimal sub with
          | .ok n rest =>
            match parseN f n rest with
            | .ok (.Array l) rest2 => .ok (.Array l) rest2
            | r => r
          | .incomplete => .incomplete
          | .protoErr => .protoErr
    else .panic  -- the unimplemented!() arm

/-- The element loop of the array arm of `parse`, accumulating `out_vec`. -/
def parseN : Nat → Nat → List Nat → ParseRes
  | _, 0, src => .ok (.Array []) src
  | f, n + 1, src =>
    match parseF f src with
    | .ok fr rest =>
      match parseN f n rest with
      | .ok (.Array l) rest2 => .ok (.Array (fr :: l)) rest2
      | r => r
    | .incomplete => .incomplete
    | .protoErr => .protoErr
    | .panic => .panic

end

/-- `Frame::check` over a whole byte window, cursor starting at 0
(as called from `connection.rs::parse_frame`). -/
def check (src : List Nat) : CheckRes := checkF (src.length + 1) src

/-- `Frame::parse` over a whole byte window, cursor starting at 0. -/
def parse (src : List Nat) : ParseRes := parseF (src.length + 1) src

/-- Little-endian decimal digits of `n` (the division loop of a decimal
printer), with a structural fuel; fuel `n` always suffices since the
argument at least halves each step. -/
def digitsLE : Nat → Nat → List Nat
  | _, 0 => []
  | 0, _ + 1 => []
  | f + 1, n + 1 => ((n + 1) % 10) :: digitsLE f ((n + 1) / 10)

/-- ASCII decimal digits of a `u64`, as printed by `itoa`
(`connection.rs::write_decimal` before the CRLF). -/
def natDigits (n : Nat) : List Nat :=
  if n = 0 then [48] else (digitsLE n n).reverse.map (· + 48)

/-- `connection.rs::Connection::write_decimal`: decimal digits + CRLF. -/
def writeDecimal (n : Nat) : List Nat := natDigits n ++ [13, 10]

/-- `connection.rs::Connection::write_val`: byte encoding of a non-array
frame; `none` models the `unreachable!()` abort on a nested array. -/
def writeVal : Frame → Option (List Nat)
  | .Simple s => some (43 :: (s ++ [13, 10]))
  | .Error s => some (45 :: (s ++ [13, 10]))
  | .Integer n => some (58 :: writeDecimal n)
  | .Null => some [36, 45, 49, 13, 10]
  | .Bulk b => some (36 :: (writeDecimal b.length ++ b ++ [13, 10]))
  | .Array _ => none

/-- Encoding of a list of array elements by repeated `write_val`. -/
def writeVals : List Frame → Option (List Nat)
  | [] => some []
  | v :: t =>
    match writeVal v, writeVals t with
    | some bs, some rest => some (bs ++ rest)
    | _, _ => none

/-- `connection.rs::Connection::write_frame`: the full byte encoding of a
frame as written to the stream (an array writes its header then each
element through `write_val`). -/
def writeFrame : Frame → Option (List Nat)
  | .Array l =>
    match writeVals l with
    | some body => some (42 :: (writeDecimal l.length ++ body))
    | none => none
  | v => writeVal v

/-- A frame `write_val` can encode so that parsing inverts the encoding:
not an array (`write_val` aborts on those), `Simple`/`Error` text holding
no CRLF (a CRLF inside the text makes `get_line` cut the frame short) and
valid UTF-8 (automatic for a Rust `String`), and numbers within `u64`. -/
def GoodVal : Frame → Prop
  | .Simple s => utf8Valid s = true ∧ findCRLF s = none
  | .Error s => utf8Valid s = true ∧ findCRLF s = none
  | .Integer n => n < 2 ^ 64
  | .Bulk b => b.length < 2 ^ 64
  | .Null => True
  | .Array _ => False

/-- A frame `write_frame` can encode invertibly: either a good non-array
value, or one array of good non-array values (`write_frame` writes the
header itself and aborts on nested arrays). -/
def GoodFrame : Frame → Prop
  | .Array l => l.length < 2 ^ 64 ∧ ∀ v ∈ l, GoodVal v
  | v => GoodVal v

end Frame

/-- `db.rs::Data`: the value stored under one key.  `String` carries the
UTF-8 bytes of the Rust `String`. -/
inductive Data
  | Bytes (b : List Nat)
  | Array (l : List Data)
  | String (s : List Nat)
  | Integer (n : Nat)
deriving Repr

/-- `db.rs::Entry`: a stored value plus its optional absolute expiration
instant (`tokio::time::Instant` modelled as a `Nat`). -/
structure Entry where
  data : Data
  expires_at : Option Nat

/-- `db.rs::State`: `entries` is the `HashMap` as an association list with
unique keys (keys are the UTF-8 bytes of the Rust `String`), `expirations`
the `BTreeSet<(Instant, String)>` as a lexicographically sorted duplicate
free list whose head is the set minimum. -/
structure State where
  entries : List (List Nat × Entry)
  expirations : List (Nat × List Nat)
  shutdown : Bool

namespace Db

/-- `HashMap::get`. -/
def aLookup (k : List Nat) : List (List Nat × Entry) → Option Entry
  | [] => none
  | (k', e) :: t => if k' = k then some e else aLookup k t

/-- `HashMap::insert` (replacing any previous binding for the key). -/
def aInsert (k : List Nat) (e : Entry) : List (List Nat × Entry) → List (List Nat × Entry)
  | [] => [(k, e)]
  | (k', e') :: t => if k' = k then (k, e) :: t else (k', e') :: aInsert k e t

/-- `HashMap::remove` (drops every binding of the key; a `HashMap` holds
at most one, so this coincides with it on all states the code builds). -/
def aRemove (k : List Nat) : List (List Nat × Entry) → List (List Nat × Entry)
  | [] => []
  | (k', e') :: t => if k' = k then aRemove k t else (k', e') :: aRemove k t

/-- Strict lexicographic byte order on keys (Rust `String` ordering). -/
def bytesLt : List Nat → List Nat → Bool
  | [], [] => false
  | [], _ :: _ => true
  | _ :: _, [] => false
  | a :: s, b :: t => if a < b then true else if b < a then false else bytesLt s t

/-- The `Ord` instance of `(Instant, String)` used by the `BTreeSet`. -/
def pairLt (x y : Nat × List Nat) : Bool :=
  if x.1 < y.1 then true
  else if y.1 < x.1 then false
  else bytesLt x.2 y.2

/-- `BTreeSet::insert`: ordered insertion, no-op when already a member. -/
def setInsert (x : Nat × List Nat) : List (Nat × List Nat) → List (Nat × List Nat)
  | [] => [x]
  | y :: t =>
    if x = y then y :: t
    else if pairLt x y then x :: y :: t
    else y :: setInsert x t

/-- `BTreeSet::remove`. -/
def setRemove (x : Nat × List Nat) : List (Nat × List Nat) → List (Nat × List Nat)
  | [] => []
  | y :: t => if y = x then t else y :: setRemove x t

/-- `db.rs::State::next_expiration`: the minimum of the expiration set. -/
def nextExpiration (st : State) : Option Nat := st.expirations.head?.map (·.1)

/-- `db.rs::Db::get`: looks the key up in `entries` and clones the stored
data; the entry's `expires_at` is never consulted. -/
def get (st : State) (key : List Nat) : Option Data :=
  (aLookup key st.entries).map (·.data)

/-- `db.rs::Db::set`: `now` is the value of `Instant::now()` at the call
and `expire` the optional TTL duration (in the same time unit).  Returns
the new state together with the computed `notify` flag. -/
def set (st : State) (now : Nat) (key : List Nat) (value : Data)
    (expire : Option Nat) : State × Bool :=
  let expires_at := expire.map (fun duration => now + duration)
  let notify :=
    match expire with
    | none => false
    | some duration =>
      match nextExpiration st with
      | some expiration => decide (now + duration < expiration)
      | none => true
  let prev := aLookup key st.entries
  let entries := aInsert key ⟨value, expires_at⟩ st.entries
  let exps :=
    match prev with
    | some prevE =>
      match prevE.expires_at with
      | some whenP => setRemove (whenP, key) st.expirations
      | none => st.expirations
    | none => st.expirations
  let exps :=
    match expires_at with
    | some whenN => setInsert (whenN, key) exps
    | none => exps
  (⟨entries, exps, st.shutdown⟩, notify)

/-- The `while let` loop of `db.rs::Shared::purge_expired_keys`: pops the
set minimum (head of the sorted list) while its instant is ≤ `now`,
removing the matching map entry; returns the surviving entries, the
surviving expiration set, and the next wake instant. -/
def purgeLoop (now : Nat) :
    List (List Nat × Entry) → List (Nat × List Nat) →
    List (List Nat × Entry) × List (Nat × List Nat) × Option Nat
  | entries, [] => (entries, [], none)
  | entries, (whenE, key) :: rest =>
    if now < whenE then (entries, (whenE, key) :: rest, some whenE)
    else purgeLoop now (aRemove key entries) rest

/-- `db.rs::Shared::purge_expired_keys` (the non-shutdown path). -/
def purge (st : State) (now : Nat) : State × Option Nat :=
  let (entries, exps, next) := purgeLoop now st.entries st.expirations
  (⟨entries, exps, st.shutdown⟩, next)

/-- `db.rs::Db::new`: the empty store. -/
def empty : State := ⟨[], [], false⟩

/-- States reachable from the empty store through the storage-engine
operations: `set` (with or without TTL), `get` (which does not mutate),
and the reaper's purge step. -/
inductive Reach : State → Prop
  | init : Reach empty
  | step_set {st} (now key value expire) :
      Reach st → Reach (set st now key value expire).1
  | step_get {st} : Reach st → Reach st
  | step_purge {st} (now) : Reach st → Reach (purge st now).1

/-- The key's tracked expiration matches a member of the set. -/
def entryHasExp (entries : List (List Nat × Entry)) (t : Nat) (k : List Nat) : Bool :=
  match aLookup k entries with
  | some e => e.expires_at = some t
  | none => false

/-- Membership of an entry's deadline in the expiration set. -/
def expTracked (exps : List (Nat × List Nat)) (k : List Nat) (e : Entry) : Bool :=
  match e.expires_at with
  | some t => decide ((t, k) ∈ exps)
  | none => true

/-- The spec's consistency invariant between `entries` and `expirations`:
no duplicate members, every member backed by an entry expiring at exactly
that instant, and every entry deadline present as a member (so each
expiring key contributes exactly one member and no others exist). -/
def consistent (st : State) : Prop :=
  st.expirations.Nodup ∧
  (∀ p ∈ st.expirations, entryHasExp st.entries p.1 p.2 = true) ∧
  (∀ q ∈ st.entries, expTracked st.expirations q.1 q.2 = true)

instance (st : State) : Decidable (consistent st) := by
  unfold consistent; infer_instance

/-- The key column of the entry map has no duplicates (a `HashMap` holds
at most one binding per key). -/
def keysNodup (l : List (List Nat × Entry)) : Prop := (l.map (·.1)).Nodup

/-- The expiration set is strictly sorted in the `BTreeSet` order. -/
def expSorted (exps : List (Nat × List Nat)) : Prop :=
  exps.Pairwise (fun a b => pairLt a b = true)

/-- Well-formedness of a store state: the representation invariants of the
`HashMap` and the `BTreeSet` plus the consistency invariant. -/
def WF (st : State) : Prop :=
  keysNodup st.entries ∧ expSorted st.expirations ∧ consistent st

end Db

/-- `parse.rs::ParseError`: `EndOfStream` is recoverable, `Other` carries
the UTF-8 bytes of the error message. -/
inductive ParseError
  | endOfStream
  | other (msg : List Nat)
deriving Repr

namespace Parse

/-- The `Parse` cursor is the list of array elements still to consume;
each operation returns the value together with the remaining elements. -/
def next (fs : List Frame) : Except ParseError (Frame × List Frame) :=
  match fs with
  | [] => .error .endOfStream
  | f :: t => .ok (f, t)

/-- `parse.rs::Parse::next_bytes`. -/
def nextBytes (fs : List Frame) : Except ParseError (List Nat × List Frame) :=
  match next fs with
  | .error e => .error e
  | .ok (.Simple data, t) => .ok (data, t)
  | .ok (.Bulk data, t) => .ok (data, t)
  | .ok (_, _) =>
    .error (.other (strB "protocol error; expected simple or bulk string frame"))

/-- `parse.rs::Parse::next_string` (a `Bulk` must be valid UTF-8). -/
def nextString (fs : List Frame) : Except ParseError (List Nat × List Frame) :=
  match next fs with
  | .error e => .error e
  | .ok (.Simple data, t) => .ok (data, t)
  | .ok (.Bulk data, t) =>
    if utf8Valid data then .ok (data, t)
    else .error (.other (strB "protocol error; invalid string"))
  | .ok (_, _) =>
    .error (.other (strB "protocol error; expected Simple or Bulk frame"))

/-- `parse.rs::Parse::next_int` (`Simple`/`Bulk` via `atoi`, or `Integer`). -/
def nextInt (fs : List Frame) : Except ParseError (Nat × List Frame) :=
  match next fs with
  | .error e => .error e
  | .ok (.Simple data, t) =>
    match Frame.atoi data with
    | some n => .ok (n, t)
    | none => .error (.other (strB "protocol error; invalid number"))
  | .ok (.Bulk data, t) =>
    match Frame.atoi data with
    | some n => .ok (n, t)
    | none => .error (.other (strB "protocol error; invalid number"))
  | .ok (.Integer int, t) => .ok (int, t)
  | .ok (_, _) => .error (.other (strB "protocol error; expected Integer frame"))

/-- Modelled from the spec: `Parse::next_array` is called by
`cmd/rpush.rs` but its definition is missing from the sources (spec §4.3:
it "consumes the remainder as a typed list").  Each remaining element is
converted to the stored-data type in the evident way; an element that has
no stored counterpart is a parse error. -/
def nextArray (fs : List Frame) : Except ParseError (List Data × List Frame) :=
  match fs with
  | [] => .ok ([], [])
  | f :: t =>
    match f with
    | .Simple s =>
      match nextArray t with
      | .ok (l, r) => .ok (.String s :: l, r)
      | .error e => .error e
    | .Bulk b =>
      match nextArray t with
      | .ok (l, r) => .ok (.Bytes b :: l, r)
      | .error e => .error e
    | .Integer n =>
      match nextArray t with
      | .ok (l, r) => .ok (.Integer n :: l, r)
      | .error e => .error e
    | _ => .error (.other (strB "protocol error; unsupported array element"))

end Parse

/-- The message a `ParseError` is rendered to when converted to a
`crate::Error` (its `Display` impl). -/
def ParseError.render : ParseError → List Nat
  | .endOfStream => strB "protocol error; unexpected end of stream"
  | .other msg => msg

namespace Cmd

/-- `cmd/ping.rs::Ping`. -/
structure Ping where
  msg : Option (List Nat)

/-- `cmd/get.rs::Get`. -/
structure Get where
  key : List Nat

/-- `cmd/set.rs::Set` (`expire` is the optional `Duration`, in
milliseconds; `Duration::from_secs s` is `1000 * s` of them). -/
structure Set where
  key : List Nat
  value : List Nat
  expire : Option Nat

/-- `cmd/rpush.rs::RPush`. -/
structure RPush where
  list_key : List Nat
  data : List Data

/-- `cmd/mod.rs::Command`. -/
inductive Command
  | Ping (cmd : Ping)
  | Set (cmd : Set)
  | Get (cmd : Get)
  | RPush (cmd : RPush)
  | Unknown (name : List Nat)

namespace Ping

/-- `cmd/ping.rs::Ping::parse_frames`. -/
def parse_frames (fs : List Frame) : Except (List Nat) Ping :=
  match Parse.nextBytes fs with
  | .ok (msg, _) => .ok ⟨some msg⟩
  | .error .endOfStream => .ok ⟨none⟩
  | .error e => .error e.render

end Ping

namespace Get

/-- `cmd/get.rs::Get::parse_frame`. -/
def parse_frame (fs : List Frame) : Except (List Nat) Get :=
  match Parse.nextString fs with
  | .ok (key, _) => .ok ⟨key⟩
  | .error e => .error e.render

end Get

namespace Set

/-- `cmd/set.rs::Set::parse_frames`: key, value, then at most one
`EX`/`PX` option (token compared after `to_uppercase`); `EndOfStream`
means no expiration; any other first trailing token is an error.  Note
that after a recognized option and its integer the function returns
without looking at the rest of the frame. -/
def parse_frames (fs : List Frame) : Except (List Nat) Set :=
  match Parse.nextString fs with
  | .error e => .error e.render
  | .ok (key, fs1) =>
    match Parse.nextBytes fs1 with
    | .error e => .error e.render
    | .ok (value, fs2) =>
      match Parse.nextString fs2 with
      | .ok (s, fs3) =>
        if asciiUpper s = strB "EX" then
          match Parse.nextInt fs3 with
          | .ok (secs, _) => .ok ⟨key, value, some (1000 * secs)⟩
          | .error e => .error e.render
        else if asciiUpper s = strB "PX" then
          match Parse.nextInt fs3 with
          | .ok (ms, _) => .ok ⟨key, value, some ms⟩
          | .error e => .error e.render
        else .error (strB "walrus only supports expiration option for `SET`")
      | .error .endOfStream => .ok ⟨key, value, none⟩
      | .error e => .error e.render

end Set

namespace RPush

/-- `cmd/rpush.rs::RPush::parse_frames`. -/
def parse_frames (fs : List Frame) : Except (List Nat) RPush :=
  match Parse.nextString fs with
  | .error e => .error e.render
  | .ok (list_key, fs1) =>
    match Parse.nextArray fs1 with
    | .error e => .error e.render
    | .ok (value, _) => .ok ⟨list_key, value⟩

end RPush

namespace Command

/-- `cmd/mod.rs::Command::from_frame`: the frame must be an array; the
first element is the command name, compared after `to_lowercase`. -/
def from_frame (frame : Frame) : Except (List Nat) Command :=
  match frame with
  | .Array array =>
    match Parse.nextString array with
    | .error e => .error e.render
    | .ok (name, rest) =>
      let command_name := asciiLower name
      if command_name = strB "ping" then
        match Ping.parse_frames rest with
        | .ok c => .ok (.Ping c)
        | .error e => .error e
      else if command_name = strB "set" then
        match Set.parse_frames rest with
        | .ok c => .ok (.Set c)
        | .error e => .error e
      else if command_name = strB "get" then
        match Get.parse_frame rest with
        | .ok c => .ok (.Get c)
        | .error e => .error e
      else if command_name = strB "rpush" then
        match RPush.parse_frames rest with
        | .ok c => .ok (.RPush c)
        | .error e => .error e
      else .ok (.Unknown command_name)
  | _ => .error (strB "protocol error; expected array")

end Command

/-- `cmd/get.rs::Get::execute`: `.ok f` means the frame `f` is written to
the connection; `.error msg` means `execute` returns `Err(msg)` and no
reply frame is written (the connection handler treats this as fatal). -/
def Get.execute (cmd : Get) (st : State) : Except (List Nat) Frame :=
  match Db.get st cmd.key with
  | some data =>
    match data with
    | .Bytes b => .ok (.Bulk b)
    | .String s => .ok (.Bulk s)
    | .Integer i => .ok (.Integer i)
    | .Array _ =>
      .error (strB "ERR Operation against a key holding the wrong kind of value")
  | none => .ok .Null

/-- `cmd/rpush.rs::RPush::execute` at time `now`: returns the updated
store and the reply frame written to the connection.  When the key holds
a list the items are appended to the local clone obtained from `Db::get`
and only the clone's length is replied — `Db::set` is never called, so
the store is returned unchanged. -/
def RPush.execute (cmd : RPush) (st : State) (now : Nat) : State × Frame :=
  match Db.get st cmd.list_key with
  | some data =>
    match data with
    | .Array list => (st, .Integer (list.length + cmd.data.length))
    | _ => (st, .Integer 0)
  | none =>
    ((Db.set st now cmd.list_key (.Array cmd.data) none).1,
      .Integer cmd.data.length)

/-- `cmd/set.rs::Set::execute`. -/
def Set.execute (cmd : Set) (st : State) (now : Nat) : State × Frame :=
  ((Db.set st now cmd.key (.Bytes cmd.value) cmd.expire).1,
    .Simple (strB "OK"))

/-- `cmd/ping.rs::Ping::execute`. -/
def Ping.execute (cmd : Ping) : Frame :=
  match cmd.msg with
  | none => .Simple (strB "PONG")
  | some msg => .Bulk msg

/-- `cmd/mod.rs::Command::execute`: dispatches to the per-command execute;
`.ok (st, f)` means the reply frame `f` was written and `Ok(())`
returned; `.error msg` means the command returned `Err(msg)`. -/
def Command.execute (cmd : Command) (st : State) (now : Nat) :
    Except (List Nat) (State × Frame) :=
  match cmd with
  | .Ping c => .ok (st, c.execute)
  | .Set c => .ok (c.execute st now)
  | .Get c =>
    match c.execute st with
    | .ok f => .ok (st, f)
    | .error e => .error e
  | .RPush c => .ok (c.execute st now)
  | .Unknown name =>
    .ok (st, .Error (strB "ERR unknown command " ++ name))

end Cmd

/-! ### Storage-engine lemmas -/

namespace Db

theorem aLookup_aInsert_self (k : List Nat) (e : Entry) :
    ∀ l, aLookup k (aInsert k e l) = some e := by
  intro l
  induction l with
  | nil => simp [aInsert, aLookup]
  | cons p t ih =>
    obtain ⟨k1, e1⟩ := p
    by_cases h : k1 = k
    · simp [aInsert, aLookup, h]
    · simp [aInsert, aLookup, h, ih]

theorem aLookup_aInsert_ne (k k' : List Nat) (e : Entry) (h : k' ≠ k) :
    ∀ l, aLookup k' (aInsert k e l) = aLookup k' l := by
  intro l
  induction l with
  | nil => simp [aInsert, aLookup, Ne.symm h]
  | cons p t ih =>
    obtain ⟨k1, e1⟩ := p
    by_cases h1 : k1 = k
    · subst h1
      simp [aInsert, aLookup, Ne.symm h]
    · by_cases h2 : k1 = k'
      · simp [aInsert, aLookup, h1, h2, h]
      · simp [aInsert, aLookup, h1, h2, ih]

theorem aLookup_aRemove_self (k : List Nat) :
    ∀ l, aLookup k (aRemove k l) = none := by
  intro l
  induction l with
  | nil => simp [aRemove, aLookup]
  | cons p t ih =>
    obtain ⟨k1, e1⟩ := p
    by_cases h : k1 = k
    · simp [aRemove, h, ih]
    · simp [aRemove, aLookup, h, ih]

theorem aLookup_aRemove_ne (k k' : List Nat) (h : k' ≠ k) :
    ∀ l, aLookup k' (aRemove k l) = aLookup k' l := by
  intro l
  induction l with
  | nil => simp [aRemove]
  | cons p t ih =>
    obtain ⟨k1, e1⟩ := p
    by_cases h1 : k1 = k
    · subst h1
      simp [aRemove, aLookup, Ne.symm h, ih]
    · by_cases h2 : k1 = k'
      · simp [aRemove, aLookup, h1, h2, h]
      · simp [aRemove, aLookup, h1, h2, ih]

theorem aLookup_mem {k : List Nat} {e : Entry} :
    ∀ {l}, aLookup k l = some e → (k, e) ∈ l := by
  intro l
  induction l with
  | nil => simp [aLookup]
  | cons p t ih =>
    obtain ⟨k1, e1⟩ := p
    by_cases h : k1 = k
    · subst h
      simp only [aLookup, if_pos rfl]
      rintro ⟨rfl⟩
      exact List.mem_cons_self _ _
    · simp only [aLookup, if_neg h]
      intro hl
      exact List.mem_cons_of_mem _ (ih hl)

theorem mem_aLookup {k : List Nat} {e : Entry} :
    ∀ {l}, keysNodup l → (k, e) ∈ l → aLookup k l = some e := by
  intro l
  induction l with
  | nil => simp
  | cons p t ih =>
    obtain ⟨k1, e1⟩ := p
    intro hnd hm
    have hnd' : keysNodup t := (List.nodup_cons.mp hnd).2
    rcases List.mem_cons.mp hm with h | h
    · cases h
      simp [aLookup]
    · have hk : k1 ≠ k := by
        intro hkk
        subst hkk
        exact (List.nodup_cons.mp hnd).1 (List.mem_map.mpr ⟨(k1, e), h, rfl⟩)
      simp [aLookup, hk, ih hnd' h]

theorem mem_aRemove {q : List Nat × Entry} {k : List Nat} :
    ∀ {l}, q ∈ aRemove k l ↔ q ∈ l ∧ q.1 ≠ k := by
  intro l
  induction l with
  | nil => simp [aRemove]
  | cons p t ih =>
    obtain ⟨k1, e1⟩ := p
    by_cases h : k1 = k
    · subst h
      rw [show aRemove k1 ((k1, e1) :: t) = aRemove k1 t from by simp [aRemove]]
      rw [ih]
      simp only [List.mem_cons]
      constructor
      · rintro ⟨hq, hne⟩
        exact ⟨Or.inr hq, hne⟩
      · rintro ⟨rfl | hq, hne⟩
        · exact absurd rfl hne
        · exact ⟨hq, hne⟩
    · rw [show aRemove k ((k1, e1) :: t) = (k1, e1) :: aRemove k t from by
        simp [aRemove, h]]
      simp only [List.mem_cons, ih]
      constructor
      · rintro (rfl | ⟨hq, hne⟩)
        · exact ⟨Or.inl rfl, h⟩
        · exact ⟨Or.inr hq, hne⟩
      · rintro ⟨rfl | hq, hne⟩
        · exact Or.inl rfl
        · exact Or.inr ⟨hq, hne⟩

theorem aRemove_keys_sublist (k : List Nat) :
    ∀ l, ((aRemove k l).map (·.1)).Sublist (l.map (·.1)) := by
  intro l
  induction l with
  | nil => simp [aRemove]
  | cons p t ih =>
    obtain ⟨k1, e1⟩ := p
    by_cases h : k1 = k
    · simp only [aRemove, if_pos h, List.map_cons]
      exact ih.cons _
    · simp only [aRemove, if_neg h, List.map_cons]
      exact ih.cons₂ _

theorem keysNodup_aRemove {k : List Nat} {l} (h : keysNodup l) :
    keysNodup (aRemove k l) :=
  (aRemove_keys_sublist k l).nodup h

theorem keysNodup_cons {k1 : List Nat} {e1 : Entry} {t}
    (hnd : keysNodup ((k1, e1) :: t)) :
    k1 ∉ t.map (·.1) ∧ keysNodup t := by
  have : (k1 :: t.map (·.1)).Nodup := by simpa [keysNodup] using hnd
  exact List.nodup_cons.mp this

theorem mem_aInsert {q : List Nat × Entry} {k : List Nat} {e : Entry} :
    ∀ {l}, keysNodup l →
      (q ∈ aInsert k e l ↔ q = (k, e) ∨ (q ∈ l ∧ q.1 ≠ k)) := by
  intro l
  induction l with
  | nil => simp [aInsert]
  | cons p t ih =>
    obtain ⟨k1, e1⟩ := p
    intro hnd
    obtain ⟨hh, hnd'⟩ := keysNodup_cons hnd
    by_cases h : k1 = k
    · subst h
      have hkt : ∀ q' ∈ t, q'.1 ≠ k1 := by
        intro q' hq' hq1
        exact hh (List.mem_map.mpr ⟨q', hq', hq1⟩)
      rw [show aInsert k1 e ((k1, e1) :: t) = (k1, e) :: t from by simp [aInsert]]
      simp only [List.mem_cons]
      constructor
      · rintro (rfl | hq)
        · exact Or.inl rfl
        · exact Or.inr ⟨Or.inr hq, hkt q hq⟩
      · rintro (rfl | ⟨hq, hne⟩)
        · exact Or.inl rfl
        · rcases hq with rfl | hq
          · exact absurd rfl hne
          · exact Or.inr hq
    · rw [show aInsert k e ((k1, e1) :: t) = (k1, e1) :: aInsert k e t from by
        simp [aInsert, h]]
      simp only [List.mem_cons, ih hnd']
      constructor
      · rintro (rfl | rfl | ⟨hq, hne⟩)
        · exact Or.inr ⟨Or.inl rfl, h⟩
        · exact Or.inl rfl
        · exact Or.inr ⟨Or.inr hq, hne⟩
      · rintro (rfl | ⟨hq, hne⟩)
        · exact Or.inr (Or.inl rfl)
        · rcases hq with rfl | hq
          · exact Or.inl rfl
          · exact Or.inr (Or.inr ⟨hq, hne⟩)

theorem keysNodup_aInsert {k : List Nat} {e : Entry} :
    ∀ {l}, keysNodup l → keysNodup (aInsert k e l) := by
  intro l
  induction l with
  | nil => simp [aInsert, keysNodup]
  | cons p t ih =>
    obtain ⟨k1, e1⟩ := p
    intro hnd
    obtain ⟨hh, hnd'⟩ := keysNodup_cons hnd
    by_cases h : k1 = k
    · subst h
      rw [show aInsert k1 e ((k1, e1) :: t) = (k1, e) :: t from by simp [aInsert]]
      simpa [keysNodup] using And.intro hh hnd'
    · rw [show aInsert k e ((k1, e1) :: t) = (k1, e1) :: aInsert k e t from by
        simp [aInsert, h]]
      have hni : k1 ∉ (aInsert k e t).map (·.1) := by
        intro hmem
        rcases List.mem_map.mp hmem with ⟨q, hq, hq1⟩
        rcases (mem_aInsert hnd').mp hq with rfl | ⟨hq', _⟩
        · exact h (by simpa using hq1.symm)
        · exact hh (List.mem_map.mpr ⟨q, hq', hq1⟩)
      simpa [keysNodup] using And.intro hni (ih hnd')

theorem mem_setInsert {y x : Nat × List Nat} :
    ∀ {l}, y ∈ setInsert x l ↔ y = x ∨ y ∈ l := by
  intro l
  induction l with
  | nil => simp [setInsert]
  | cons z t ih =>
    by_cases h1 : x = z
    · subst h1
      rw [show setInsert x (x :: t) = x :: t from by simp [setInsert]]
      simp only [List.mem_cons]
      tauto
    · by_cases h2 : pairLt x z = true
      · rw [show setInsert x (z :: t) = x :: z :: t from by simp [setInsert, h1, h2]]
        simp only [List.mem_cons]
      · rw [show setInsert x (z :: t) = z :: setInsert x t from by
          simp [setInsert, h1, h2]]
        simp only [List.mem_cons, ih]
        tauto

theorem setRemove_sublist (x : Nat × List Nat) :
    ∀ l, (setRemove x l).Sublist l := by
  intro l
  induction l with
  | nil => simp [setRemove]
  | cons z t ih =>
    by_cases h : z = x
    · simp only [setRemove, if_pos h]
      exact (List.sublist_cons_self _ _)
    · simp only [setRemove, if_neg h]
      exact ih.cons₂ _

theorem mem_setRemove_of_ne {y x : Nat × List Nat} (hne : y ≠ x) :
    ∀ {l}, y ∈ l → y ∈ setRemove x l := by
  intro l
  induction l with
  | nil => simp
  | cons z t ih =>
    intro hm
    rcases List.mem_cons.mp hm with rfl | hm
    · rw [show setRemove x (y :: t) = y :: setRemove x t from by
        simp [setRemove, hne]]
      exact List.mem_cons_self _ _
    · by_cases h : z = x
      · rw [show setRemove x (z :: t) = t from by simp [setRemove, h]]
        exact hm
      · rw [show setRemove x (z :: t) = z :: setRemove x t from by
          simp [setRemove, h]]
        exact List.mem_cons_of_mem _ (ih hm)

theorem not_mem_setRemove_self {x : Nat × List Nat} :
    ∀ {l}, l.Nodup → x ∉ setRemove x l := by
  intro l
  induction l with
  | nil => simp [setRemove]
  | cons z t ih =>
    intro hnd
    obtain ⟨hz, hnd'⟩ := List.nodup_cons.mp hnd
    by_cases h : z = x
    · subst h
      rw [show setRemove z (z :: t) = t from by simp [setRemove]]
      exact hz
    · rw [show setRemove x (z :: t) = z :: setRemove x t from by
        simp [setRemove, h]]
      simp only [List.mem_cons]
      rintro (rfl | hm)
      · exact h rfl
      · exact ih hnd' hm

theorem mem_setRemove {y x : Nat × List Nat} {l} (hnd : l.Nodup) :
    y ∈ setRemove x l ↔ y ∈ l ∧ y ≠ x := by
  constructor
  · intro hm
    refine ⟨(setRemove_sublist x l).mem hm, ?_⟩
    rintro rfl
    exact not_mem_setRemove_self hnd hm
  · rintro ⟨hm, hne⟩
    exact mem_setRemove_of_ne hne hm

theorem bytesLt_irrefl : ∀ l : List Nat, bytesLt l l = false := by
  intro l
  induction l with
  | nil => simp [bytesLt]
  | cons a s ih => simp [bytesLt, ih]

theorem bytesLt_trans :
    ∀ a b c : List Nat, bytesLt a b = true → bytesLt b c = true →
      bytesLt a c = true := by
  intro a
  induction a with
  | nil =>
    intro b c h1 h2
    cases b with
    | nil => simp [bytesLt] at h1
    | cons x s =>
      cases c with
      | nil => simp [bytesLt] at h2
      | cons y t => simp [bytesLt]
  | cons x s ih =>
    intro b c h1 h2
    cases b with
    | nil => simp [bytesLt] at h1
    | cons y t =>
      cases c with
      | nil => simp [bytesLt] at h2
      | cons z u =>
        simp only [bytesLt] at h1 h2 ⊢
        rcases Nat.lt_trichotomy x y with hxy | hxy | hxy
        · rcases Nat.lt_trichotomy y z with hyz | hyz | hyz
          · simp [Nat.lt_trans hxy hyz]
          · subst hyz
            simp [hxy]
          · rw [if_neg (Nat.lt_asymm hyz), if_pos hyz] at h2
            exact absurd h2 (by simp)
        · subst hxy
          rcases Nat.lt_trichotomy x z with hxz | hxz | hxz
          · simp [hxz]
          · subst hxz
            rw [if_neg (Nat.lt_irrefl x), if_neg (Nat.lt_irrefl x)] at h1 h2 ⊢
            exact ih t u h1 h2
          · rw [if_neg (Nat.lt_asymm hxz), if_pos hxz] at h2
            exact absurd h2 (by simp)
        · rw [if_neg (Nat.lt_asymm hxy), if_pos hxy] at h1
          exact absurd h1 (by simp)

theorem bytesLt_total :
    ∀ a b : List Nat, a ≠ b → bytesLt a b = true ∨ bytesLt b a = true := by
  intro a
  induction a with
  | nil =>
    intro b hne
    cases b with
    | nil => exact absurd rfl hne
    | cons y t => simp [bytesLt]
  | cons x s ih =>
    intro b hne
    cases b with
    | nil => simp [bytesLt]
    | cons y t =>
      rcases Nat.lt_trichotomy x y with hxy | hxy | hxy
      · simp [bytesLt, hxy]
      · subst hxy
        have hst : s ≠ t := by
          intro h
          exact hne (by rw [h])
        rcases ih t hst with h | h
        · left
          simp [bytesLt, h]
        · right
          simp [bytesLt, h]
      · right
        simp [bytesLt, hxy]

theorem pairLt_iff {x y : Nat × List Nat} :
    pairLt x y = true ↔ x.1 < y.1 ∨ (x.1 = y.1 ∧ bytesLt x.2 y.2 = true) := by
  unfold pairLt
  by_cases a : x.1 < y.1
  · simp [a]
  · by_cases b : y.1 < x.1
    · simp only [if_neg a, if_pos b]
      constructor
      · intro h
        exact absurd h (by simp)
      · intro h
        omega
    · have hxy : x.1 = y.1 := by omega
      simp [a, b, hxy]

theorem pairLt_irrefl (x : Nat × List Nat) : pairLt x x = false := by
  simp [pairLt, bytesLt_irrefl]

theorem pairLt_trans {x y z : Nat × List Nat}
    (h1 : pairLt x y = true) (h2 : pairLt y z = true) : pairLt x z = true := by
  rcases pairLt_iff.mp h1 with ha | ⟨ha, hb⟩ <;>
    rcases pairLt_iff.mp h2 with hc | ⟨hc, hd⟩ <;> apply pairLt_iff.mpr
  · exact Or.inl (by omega)
  · exact Or.inl (by omega)
  · exact Or.inl (by omega)
  · exact Or.inr ⟨by omega, bytesLt_trans _ _ _ hb hd⟩

theorem pairLt_total {x y : Nat × List Nat} (hne : x ≠ y) :
    pairLt x y = true ∨ pairLt y x = true := by
  by_cases h : x.1 = y.1
  · have hb : x.2 ≠ y.2 := by
      intro h2
      exact hne (Prod.ext h h2)
    rcases bytesLt_total _ _ hb with hlt | hlt
    · exact Or.inl (pairLt_iff.mpr (Or.inr ⟨h, hlt⟩))
    · exact Or.inr (pairLt_iff.mpr (Or.inr ⟨h.symm, hlt⟩))
  · rcases Nat.lt_or_ge x.1 y.1 with hlt | hge
    · exact Or.inl (pairLt_iff.mpr (Or.inl hlt))
    · exact Or.inr (pairLt_iff.mpr (Or.inl (by omega)))

theorem pairLt_le {x y : Nat × List Nat} (h : pairLt x y = true) : x.1 ≤ y.1 := by
  rcases pairLt_iff.mp h with h1 | ⟨h1, _⟩
  · exact Nat.le_of_lt h1
  · exact Nat.le_of_eq h1

theorem expSorted_nodup {l : List (Nat × List Nat)} (h : expSorted l) :
    l.Nodup :=
  h.imp fun hlt heq => by
    subst heq
    simp [pairLt_irrefl] at hlt

theorem expSorted_setInsert {x : Nat × List Nat} :
    ∀ {l}, expSorted l → expSorted (setInsert x l) := by
  intro l
  induction l with
  | nil => simp [setInsert, expSorted]
  | cons z t ih =>
    intro hs
    obtain ⟨hz, ht⟩ := List.pairwise_cons.mp hs
    by_cases h1 : x = z
    · subst h1
      rwa [show setInsert x (x :: t) = x :: t from by simp [setInsert]]
    · by_cases h2 : pairLt x z = true
      · rw [show setInsert x (z :: t) = x :: z :: t from by simp [setInsert, h1, h2]]
        refine List.pairwise_cons.mpr ⟨?_, hs⟩
        intro w hw
        rcases List.mem_cons.mp hw with rfl | hw
        · exact h2
        · exact pairLt_trans h2 (hz w hw)
      · rw [show setInsert x (z :: t) = z :: setInsert x t from by
          simp [setInsert, h1, h2]]
        refine List.pairwise_cons.mpr ⟨?_, ih ht⟩
        intro w hw
        rcases mem_setInsert.mp hw with rfl | hw
        · rcases pairLt_total h1 with h | h
          · exact absurd h h2
          · exact h
        · exact hz w hw

theorem expSorted_setRemove {x : Nat × List Nat} {l} (h : expSorted l) :
    expSorted (setRemove x l) :=
  List.Pairwise.sublist (setRemove_sublist x l) h

/-- Core of the `set` preservation argument: given the expiration set after
the stale-membership removal step, characterized by `hmem1`, the state
after the insertion step is well formed. -/
theorem wf_set_core {st : State} (key : List Nat) (value : Data)
    (ea : Option Nat) (exps1 : List (Nat × List Nat)) (sd : Bool)
    (hk : keysNodup st.entries)
    (hc2 : ∀ p ∈ st.expirations, entryHasExp st.entries p.1 p.2 = true)
    (hc3 : ∀ q ∈ st.entries, expTracked st.expirations q.1 q.2 = true)
    (hs1 : expSorted exps1)
    (hmem1 : ∀ p : Nat × List Nat, p ∈ exps1 ↔ p ∈ st.expirations ∧ p.2 ≠ key) :
    WF ⟨aInsert key ⟨value, ea⟩ st.entries,
      (match ea with
        | some w => setInsert (w, key) exps1
        | none => exps1), sd⟩ := by
  have hexps2 :
      ∀ exps2 : List (Nat × List Nat), expSorted exps2 →
        (∀ p : Nat × List Nat,
          p ∈ exps2 ↔ (ea = some p.1 ∧ p.2 = key) ∨ (p ∈ st.expirations ∧ p.2 ≠ key)) →
        WF ⟨aInsert key ⟨value, ea⟩ st.entries, exps2, sd⟩ := by
    intro exps2 hs2 hmem2
    refine ⟨keysNodup_aInsert hk, hs2, expSorted_nodup hs2, ?_, ?_⟩
    · intro p hp
      rcases (hmem2 p).mp hp with ⟨hpe, hpk⟩ | ⟨hpe, hpk⟩
      · obtain ⟨t, k⟩ := p
        simp only at hpe hpk
        subst hpk
        simp [entryHasExp, aLookup_aInsert_self, hpe.symm]
      · have hlk : aLookup p.2 (aInsert key ⟨value, ea⟩ st.entries)
            = aLookup p.2 st.entries := aLookup_aInsert_ne key p.2 _ hpk _
        have hold := hc2 p hpe
        unfold entryHasExp at hold ⊢
        rw [hlk]
        exact hold
    · intro q hq
      rcases (mem_aInsert hk).mp hq with rfl | ⟨hq', hqk⟩
      · unfold expTracked
        cases hw : ea with
        | none => rfl
        | some w =>
          simp only
          exact decide_eq_true ((hmem2 (w, key)).mpr (Or.inl ⟨hw.symm ▸ rfl, rfl⟩))
      · have hold := hc3 q hq'
        unfold expTracked at hold ⊢
        cases hw : q.2.expires_at with
        | none => rfl
        | some t =>
          rw [hw] at hold
          simp only
          have := of_decide_eq_true hold
          exact decide_eq_true ((hmem2 (t, q.1)).mpr (Or.inr ⟨this, hqk⟩))
  revert hexps2
  cases ea with
  | none =>
    intro hexps2
    refine hexps2 exps1 hs1 ?_
    intro p
    rw [hmem1 p]
    simp
  | some w =>
    intro hexps2
    refine hexps2 (setInsert (w, key) exps1) (expSorted_setInsert hs1) ?_
    intro p
    rw [mem_setInsert, hmem1 p]
    constructor
    · rintro (rfl | ⟨hpe, hpk⟩)
      · exact Or.inl ⟨rfl, rfl⟩
      · exact Or.inr ⟨hpe, hpk⟩
    · rintro (⟨hpe, hpk⟩ | ⟨hpe, hpk⟩)
      · obtain ⟨t, k'⟩ := p
        simp only at hpe hpk
        cases hpe
        subst hpk
        exact Or.inl rfl
      · exact Or.inr ⟨hpe, hpk⟩

/-- `Db::set` preserves well-formedness. -/
theorem wf_set {st : State} (h : WF st) (now : Nat) (key : List Nat)
    (value : Data) (expire : Option Nat) :
    WF (set st now key value expire).1 := by
  obtain ⟨hk, hs, hcons⟩ := h
  obtain ⟨hnd, hc2, hc3⟩ := hcons
  have hndx : st.expirations.Nodup := expSorted_nodup hs
  cases hprev : aLookup key st.entries with
  | none =>
    have hnone : ∀ p : Nat × List Nat, p ∈ st.expirations → p.2 ≠ key := by
      intro p hp hpk
      have hthis := hc2 p hp
      simp [entryHasExp, hpk, hprev] at hthis
    have hmem1 : ∀ p : Nat × List Nat,
        p ∈ st.expirations ↔ p ∈ st.expirations ∧ p.2 ≠ key := by
      intro p
      exact ⟨fun hp => ⟨hp, hnone p hp⟩, fun hp => hp.1⟩
    cases expire with
    | none =>
      simpa [set, hprev] using
        wf_set_core key value none st.expirations st.shutdown hk hc2 hc3 hs hmem1
    | some d =>
      simpa [set, hprev] using
        wf_set_core key value (some (now + d)) st.expirations st.shutdown
          hk hc2 hc3 hs hmem1
  | some prevE =>
    cases hpe : prevE.expires_at with
    | none =>
      have hnone : ∀ p : Nat × List Nat, p ∈ st.expirations → p.2 ≠ key := by
        intro p hp hpk
        have hthis := hc2 p hp
        simp [entryHasExp, hpk, hprev, hpe] at hthis
      have hmem1 : ∀ p : Nat × List Nat,
          p ∈ st.expirations ↔ p ∈ st.expirations ∧ p.2 ≠ key := by
        intro p
        exact ⟨fun hp => ⟨hp, hnone p hp⟩, fun hp => hp.1⟩
      cases expire with
      | none =>
        simpa [set, hprev, hpe] using
          wf_set_core key value none st.expirations st.shutdown hk hc2 hc3 hs hmem1
      | some d =>
        simpa [set, hprev, hpe] using
          wf_set_core key value (some (now + d)) st.expirations st.shutdown
            hk hc2 hc3 hs hmem1
    | some w =>
      have hmem1 : ∀ p : Nat × List Nat,
          p ∈ setRemove (w, key) st.expirations ↔
            p ∈ st.expirations ∧ p.2 ≠ key := by
        intro p
        rw [mem_setRemove hndx]
        constructor
        · rintro ⟨hp, hpne⟩
          refine ⟨hp, ?_⟩
          intro hpk
          have hthis := hc2 p hp
          simp [entryHasExp, hpk, hprev, hpe] at hthis
          apply hpne
          obtain ⟨t, k'⟩ := p
          simp only at hpk hthis ⊢
          subst hpk
          simp only [Prod.mk.injEq]
          exact ⟨by omega, trivial⟩
        · rintro ⟨hp, hpk⟩
          refine ⟨hp, ?_⟩
          intro hpe2
          rw [hpe2] at hpk
          exact hpk rfl
      have hs1 : expSorted (setRemove (w, key) st.expirations) :=
        expSorted_setRemove hs
      cases expire with
      | none =>
        simpa [set, hprev, hpe] using
          wf_set_core key value none (setRemove (w, key) st.expirations)
            st.shutdown hk hc2 hc3 hs1 hmem1
      | some d =>
        simpa [set, hprev, hpe] using
          wf_set_core key value (some (now + d)) (setRemove (w, key) st.expirations)
            st.shutdown hk hc2 hc3 hs1 hmem1

/-- The purge loop preserves all well-formedness components. -/
theorem wf_purgeLoop (now : Nat) :
    ∀ (exps : List (Nat × List Nat)) (entries : List (List Nat × Entry)),
      keysNodup entries → expSorted exps →
      (∀ p ∈ exps, entryHasExp entries p.1 p.2 = true) →
      (∀ q ∈ entries, expTracked exps q.1 q.2 = true) →
      keysNodup (purgeLoop now entries exps).1 ∧
      expSorted (purgeLoop now entries exps).2.1 ∧
      (∀ p ∈ (purgeLoop now entries exps).2.1,
        entryHasExp (purgeLoop now entries exps).1 p.1 p.2 = true) ∧
      (∀ q ∈ (purgeLoop now entries exps).1,
        expTracked (purgeLoop now entries exps).2.1 q.1 q.2 = true) := by
  intro exps
  induction exps with
  | nil =>
    intro entries hk hs hc2 hc3
    simp only [purgeLoop]
    exact ⟨hk, hs, by simp, fun q hq => by simpa using hc3 q hq⟩
  | cons hd rest ih =>
    obtain ⟨w, k0⟩ := hd
    intro entries hk hs hc2 hc3
    obtain ⟨hhd, hrest⟩ := List.pairwise_cons.mp hs
    by_cases hnow : now < w
    · rw [show purgeLoop now entries ((w, k0) :: rest)
          = (entries, (w, k0) :: rest, some w) from by simp [purgeLoop, hnow]]
      exact ⟨hk, hs, hc2, hc3⟩
    · rw [show purgeLoop now entries ((w, k0) :: rest)
          = purgeLoop now (aRemove k0 entries) rest from by simp [purgeLoop, hnow]]
      have hc2' : ∀ p ∈ rest, entryHasExp (aRemove k0 entries) p.1 p.2 = true := by
        intro p hp
        have hpk : p.2 ≠ k0 := by
          intro hpk
          have h1 := hc2 p (List.mem_cons_of_mem _ hp)
          have h0 := hc2 (w, k0) (List.mem_cons_self _ _)
          unfold entryHasExp at h1 h0
          rw [hpk] at h1
          revert h1 h0
          cases hlk : aLookup k0 entries with
          | none => simp
          | some e0 =>
            simp only [decide_eq_true_eq]
            intro h0 h1
            rw [h0] at h1
            have hpw : p = (w, k0) := by
              obtain ⟨t, k'⟩ := p
              simp only at hpk ⊢
              cases h1
              rw [hpk]
            have := hhd p hp
            rw [hpw, pairLt_irrefl] at this
            exact absurd this (by simp)
        have h1 := hc2 p (List.mem_cons_of_mem _ hp)
        unfold entryHasExp at h1 ⊢
        rw [aLookup_aRemove_ne k0 p.2 hpk]
        exact h1
      have hc3' : ∀ q ∈ aRemove k0 entries, expTracked rest q.1 q.2 = true := by
        intro q hq
        obtain ⟨hq', hqk⟩ := mem_aRemove.mp hq
        have h1 := hc3 q hq'
        unfold expTracked at h1 ⊢
        revert h1
        cases hqe : q.2.expires_at with
        | none => simp
        | some t =>
          simp only [decide_eq_true_eq]
          intro h1
          rcases List.mem_cons.mp h1 with heq | h1
          · exact absurd (congrArg Prod.snd heq) hqk
          · exact h1
      exact ih (aRemove k0 entries) (keysNodup_aRemove hk) hrest hc2' hc3'

/-- The entries component of `purge` is the loop's entries component. -/
theorem purge_entries (st : State) (now : Nat) :
    (purge st now).1.entries = (purgeLoop now st.entries st.expirations).1 := by
  unfold purge
  rcases purgeLoop now st.entries st.expirations with ⟨a, b, c⟩
  rfl

/-- The expirations component of `purge` is the loop's set component. -/
theorem purge_expirations (st : State) (now : Nat) :
    (purge st now).1.expirations = (purgeLoop now st.entries st.expirations).2.1 := by
  unfold purge
  rcases purgeLoop now st.entries st.expirations with ⟨a, b, c⟩
  rfl

/-- The shutdown flag survives `purge`. -/
theorem purge_shutdown (st : State) (now : Nat) :
    (purge st now).1.shutdown = st.shutdown := by
  unfold purge
  rcases purgeLoop now st.entries st.expirations with ⟨a, b, c⟩
  rfl

/-- `Shared::purge_expired_keys` preserves well-formedness. -/
theorem wf_purge {st : State} (h : WF st) (now : Nat) : WF (purge st now).1 := by
  obtain ⟨hk, hs, hcons⟩ := h
  obtain ⟨_, hc2, hc3⟩ := hcons
  obtain ⟨h1, h2, h3, h4⟩ := wf_purgeLoop now st.expirations st.entries hk hs hc2 hc3
  refine ⟨?_, ?_, ?_, ?_, ?_⟩
  · rw [show (purge st now).1.entries = (purgeLoop now st.entries st.expirations).1
      from purge_entries st now]
    exact h1
  · rw [show (purge st now).1.expirations
        = (purgeLoop now st.entries st.expirations).2.1 from purge_expirations st now]
    exact h2
  · rw [show (purge st now).1.expirations
        = (purgeLoop now st.entries st.expirations).2.1 from purge_expirations st now]
    exact expSorted_nodup h2
  · rw [purge_entries st now, purge_expirations st now]
    exact h3
  · rw [purge_entries st now, purge_expirations st now]
    exact h4

/-- Every reachable state is well formed. -/
theorem wf_reach : ∀ {st}, Reach st → WF st := by
  intro st h
  induction h with
  | init =>
    refine ⟨?_, ?_, ?_⟩ <;> simp [empty, keysNodup, expSorted, consistent]
  | step_set now key value expire _ ih => exact wf_set ih now key value expire
  | step_get _ ih => exact ih
  | step_purge now _ ih => exact wf_purge ih now

/-- Purging never resurrects a key: an absent key stays absent. -/
theorem purgeLoop_none_preserved {k : List Nat} (now : Nat) :
    ∀ (exps : List (Nat × List Nat)) (entries : List (List Nat × Entry)),
      aLookup k entries = none →
      aLookup k (purgeLoop now entries exps).1 = none := by
  intro exps
  induction exps with
  | nil =>
    intro entries hnone
    simpa [purgeLoop] using hnone
  | cons hd rest ih =>
    obtain ⟨w, k0⟩ := hd
    intro entries hnone
    by_cases hnow : now < w
    · rw [show purgeLoop now entries ((w, k0) :: rest)
          = (entries, (w, k0) :: rest, some w) from by simp [purgeLoop, hnow]]
      exact hnone
    · rw [show purgeLoop now entries ((w, k0) :: rest)
          = purgeLoop now (aRemove k0 entries) rest from by simp [purgeLoop, hnow]]
      apply ih
      by_cases hk : k = k0
      · subst hk
        exact aLookup_aRemove_self k entries
      · rw [aLookup_aRemove_ne k0 k hk]
        exact hnone

/-- A member of the expiration set whose instant has passed is removed from
the entry map by the purge loop. -/
theorem purgeLoop_removes {t : Nat} {k : List Nat} {now : Nat} (hle : t ≤ now) :
    ∀ (exps : List (Nat × List Nat)) (entries : List (List Nat × Entry)),
      (t, k) ∈ exps → expSorted exps →
      aLookup k (purgeLoop now entries exps).1 = none := by
  intro exps
  induction exps with
  | nil => simp
  | cons hd rest ih =>
    obtain ⟨w, k0⟩ := hd
    intro entries hmem hs
    obtain ⟨hhd, hrest⟩ := List.pairwise_cons.mp hs
    have hwle : w ≤ now := by
      rcases List.mem_cons.mp hmem with heq | hmem'
      · cases heq
        exact hle
      · exact Nat.le_trans (pairLt_le (hhd _ hmem')) hle
    have hnow : ¬ now < w := Nat.not_lt.mpr hwle
    rw [show purgeLoop now entries ((w, k0) :: rest)
        = purgeLoop now (aRemove k0 entries) rest from by simp [purgeLoop, hnow]]
    rcases List.mem_cons.mp hmem with heq | hmem'
    · cases heq
      exact purgeLoop_none_preserved now rest _ (aLookup_aRemove_self k entries)
    · exact ih _ hmem' hrest

end Db

/-! ### Frame codec lemmas -/

namespace Frame

theorem digitsVal_append (xs : List Nat) (d : Nat) :
    digitsVal (xs ++ [d]) = digitsVal xs * 10 + (d - 48) := by
  simp [digitsVal, List.foldl_append]

theorem digitsLE_lt (f : Nat) : ∀ n x, x ∈ digitsLE f n → x < 10 := by
  induction f with
  | zero =>
    intro n x h
    cases n <;> simp [digitsLE] at h
  | succ f ih =>
    intro n x h
    cases n with
    | zero => simp [digitsLE] at h
    | succ m =>
      rw [digitsLE] at h
      rcases List.mem_cons.mp h with rfl | h
      · exact Nat.mod_lt _ (by omega)
      · exact ih _ _ h

theorem digitsVal_digitsLE (f : Nat) :
    ∀ n, n ≤ f → digitsVal ((digitsLE f n).reverse.map (· + 48)) = n := by
  induction f with
  | zero =>
    intro n h
    have : n = 0 := by omega
    subst this
    simp [digitsLE, digitsVal]
  | succ f ih =>
    intro n h
    cases n with
    | zero => simp [digitsLE, digitsVal]
    | succ m =>
      have hq : (m + 1) / 10 ≤ f := by
        have : (m + 1) / 10 < m + 1 := Nat.div_lt_self (by omega) (by omega)
        omega
      calc digitsVal ((digitsLE (f + 1) (m + 1)).reverse.map (· + 48))
          = digitsVal (((digitsLE f ((m + 1) / 10)).reverse.map (· + 48))
              ++ [(m + 1) % 10 + 48]) := by
            rw [digitsLE]
            simp
        _ = (m + 1) / 10 * 10 + ((m + 1) % 10 + 48 - 48) := by
            rw [digitsVal_append, ih _ hq]
        _ = m + 1 := by omega

theorem digitsVal_natDigits (n : Nat) : digitsVal (natDigits n) = n := by
  by_cases h : n = 0
  · subst h
    simp [natDigits, digitsVal]
  · rw [natDigits, if_neg h]
    exact digitsVal_digitsLE n n (Nat.le_refl n)

theorem natDigits_digit {n : Nat} : ∀ x ∈ natDigits n, 48 ≤ x ∧ x ≤ 57 := by
  intro x h
  by_cases h0 : n = 0
  · subst h0
    simp [natDigits] at h
    omega
  · rw [natDigits, if_neg h0] at h
    rw [List.mem_map] at h
    obtain ⟨d, hd, rfl⟩ := h
    have := digitsLE_lt n n d (List.mem_reverse.mp hd)
    omega

theorem natDigits_ne_nil (n : Nat) : natDigits n ≠ [] := by
  by_cases h : n = 0
  · subst h
    simp [natDigits]
  · rw [natDigits, if_neg h]
    cases n with
    | zero => exact absurd rfl h
    | succ m =>
      rw [digitsLE]
      simp

theorem takeWhile_eq_self {p : Nat → Bool} :
    ∀ {l : List Nat}, (∀ x ∈ l, p x = true) → l.takeWhile p = l := by
  intro l
  induction l with
  | nil => simp
  | cons a t ih =>
    intro h
    rw [List.takeWhile_cons, if_pos (h a (List.mem_cons_self a t))]
    rw [ih fun x hx => h x (List.mem_cons_of_mem _ hx)]

theorem atoi_natDigits {n : Nat} (h : n < 2 ^ 64) : atoi (natDigits n) = some n := by
  have hdig : ∀ x ∈ natDigits n, isDigit x = true := by
    intro x hx
    have := natDigits_digit x hx
    simp only [isDigit, decide_eq_true_eq]
    exact (by omega : (48 ≤ x ∧ x ≤ 57))
  have hd : (natDigits n).takeWhile isDigit = natDigits n := takeWhile_eq_self hdig
  unfold atoi
  rw [hd]
  rcases hne : natDigits n with _ | ⟨d, ds⟩
  · exact absurd hne (natDigits_ne_nil n)
  · have hv : digitsVal (d :: ds) = n := by
      rw [← hne, digitsVal_natDigits]
    simp only [hv]
    rw [if_pos h]

theorem findCRLF_bound : ∀ {l : List Nat} {i}, findCRLF l = some i → i + 2 ≤ l.length := by
  intro l
  induction l with
  | nil => simp [findCRLF]
  | cons a t ih =>
    intro i h
    cases t with
    | nil => simp [findCRLF] at h
    | cons b t' =>
      rw [findCRLF] at h
      by_cases hc : a = 13 ∧ b = 10
      · rw [if_pos hc] at h
        cases h
        simp
      · rw [if_neg hc] at h
        cases hf : findCRLF (b :: t') with
        | none =>
          rw [hf] at h
          simp at h
        | some j =>
          rw [hf] at h
          simp at h
          have := ih hf
          simp only [List.length_cons] at this ⊢
          omega

theorem findCRLF_append_crlf :
    ∀ (s t : List Nat), findCRLF s = none →
      findCRLF (s ++ 13 :: 10 :: t) = some s.length := by
  intro s t
  induction s with
  | nil =>
    intro _
    simp [findCRLF]
  | cons a s ih =>
    intro h
    cases s with
    | nil =>
      show findCRLF (a :: 13 :: 10 :: t) = some 1
      rw [findCRLF]
      rw [if_neg (by omega : ¬(a = 13 ∧ (13 : Nat) = 10))]
      rw [show findCRLF (13 :: 10 :: t) = some 0 from by simp [findCRLF]]
      rfl
    | cons b s' =>
      rw [findCRLF] at h
      by_cases hc : a = 13 ∧ b = 10
      · rw [if_pos hc] at h
        exact absurd h (by simp)
      · rw [if_neg hc] at h
        have hbs : findCRLF (b :: s') = none := by
          cases hf : findCRLF (b :: s') with
          | none => rfl
          | some j =>
            rw [hf] at h
            exact absurd h (by simp)
        show findCRLF (a :: b :: (s' ++ 13 :: 10 :: t)) = some (s'.length + 2)
        rw [findCRLF, if_neg hc]
        rw [show (b :: (s' ++ 13 :: 10 :: t)) = (b :: s') ++ 13 :: 10 :: t from rfl]
        rw [ih hbs]
        simp only [List.length_cons]
        rfl

theorem getLine_append (s t : List Nat) (h : findCRLF s = none) :
    getLine (s ++ 13 :: 10 :: t) = some (s, t) := by
  have h1 : (s ++ 13 :: 10 :: t).take s.length = s := by
    rw [List.take_append_of_le_length (Nat.le_refl s.length)]
    simp
  have h2 : (s ++ 13 :: 10 :: t).drop (s.length + 2) = t := by
    rw [show s ++ 13 :: 10 :: t = (s ++ [13, 10]) ++ t from by simp]
    rw [show s.length + 2 = (s ++ [13, 10]).length from by simp]
    exact List.drop_left _ _
  unfold getLine
  rw [findCRLF_append_crlf s t h]
  show some ((s ++ 13 :: 10 :: t).take s.length,
      (s ++ 13 :: 10 :: t).drop (s.length + 2)) = some (s, t)
  rw [h1, h2]

theorem getLine_drop {src line rest : List Nat} (h : getLine src = some (line, rest)) :
    rest = src.drop (line.length + 2) := by
  unfold getLine at h
  cases hf : findCRLF src with
  | none =>
    rw [hf] at h
    exact absurd h (by simp)
  | some i =>
    rw [hf] at h
    simp only [Option.some.injEq, Prod.mk.injEq] at h
    obtain ⟨h1, h2⟩ := h
    have hb := findCRLF_bound hf
    have hlen : line.length = i := by
      rw [← h1, List.length_take]
      omega
    rw [← h2, hlen]

theorem findCRLF_none_of_no13 :
    ∀ {l : List Nat}, (∀ x ∈ l, x ≠ 13) → findCRLF l = none := by
  intro l
  induction l with
  | nil => simp [findCRLF]
  | cons a t ih =>
    intro h
    cases t with
    | nil => simp [findCRLF]
    | cons b t' =>
      rw [findCRLF]
      rw [if_neg (by
        have := h a (List.mem_cons_self _ _)
        omega : ¬(a = 13 ∧ b = 10))]
      rw [ih fun x hx => h x (List.mem_cons_of_mem _ hx)]
      rfl

theorem findCRLF_natDigits (n : Nat) : findCRLF (natDigits n) = none :=
  findCRLF_none_of_no13 fun x hx => by
    have := natDigits_digit x hx
    omega

theorem natDigits_cons (n : Nat) : ∃ d ds, natDigits n = d :: ds := by
  cases h : natDigits n with
  | nil => exact absurd h (natDigits_ne_nil n)
  | cons d ds => exact ⟨d, ds, rfl⟩

theorem drop_exact (b rest : List Nat) :
    (b ++ 13 :: 10 :: rest).drop (b.length + 2) = rest := by
  rw [show b ++ 13 :: 10 :: rest = (b ++ [13, 10]) ++ rest from by simp]
  rw [show b.length + 2 = (b ++ [13, 10]).length from by simp]
  exact List.drop_left _ _

theorem take_exact (b rest : List Nat) :
    (b ++ 13 :: 10 :: rest).take b.length = b := by
  rw [List.take_append_of_le_length (Nat.le_refl b.length)]
  simp

theorem skip_exact (b rest : List Nat) :
    skip (b ++ 13 :: 10 :: rest) (b.length + 2) = .ok rest := by
  have hlen : b.length + 2 ≤ (b ++ 13 :: 10 :: rest).length := by
    simp
  cases hb : b ++ 13 :: 10 :: rest with
  | nil => exact absurd hb (by simp)
  | cons c cs =>
    rw [show skip (c :: cs) (b.length + 2)
        = if b.length + 2 ≤ (c :: cs).length then .ok ((c :: cs).drop (b.length + 2))
          else .panic from rfl]
    rw [if_pos (hb ▸ hlen), ← hb, drop_exact]

theorem getDecimal_writeDecimal {n : Nat} (hn : n < 2 ^ 64) (rest : List Nat) :
    getDecimal (natDigits n ++ 13 :: 10 :: rest) = .ok n rest := by
  unfold getDecimal
  rw [getLine_append _ _ (findCRLF_natDigits n)]
  show (match atoi (natDigits n) with
    | some m => DecRes.ok m rest
    | none => DecRes.protoErr) = .ok n rest
  rw [atoi_natDigits hn]

theorem parseF_writeVal (f : Nat) {v : Frame} (hv : GoodVal v)
    {bs : List Nat} (hbs : writeVal v = some bs) (rest : List Nat) :
    parseF (f + 1) (bs ++ rest) = .ok v rest := by
  cases v with
  | Simple s =>
    obtain ⟨hu, hcrlf⟩ := hv
    simp only [writeVal, Option.some.injEq] at hbs
    subst hbs
    rw [show (43 :: (s ++ [13, 10])) ++ rest = 43 :: (s ++ 13 :: 10 :: rest) from by simp]
    simp [parseF, getLine_append s rest hcrlf, hu]
  | Error s =>
    obtain ⟨hu, hcrlf⟩ := hv
    simp only [writeVal, Option.some.injEq] at hbs
    subst hbs
    rw [show (45 :: (s ++ [13, 10])) ++ rest = 45 :: (s ++ 13 :: 10 :: rest) from by simp]
    simp [parseF, getLine_append s rest hcrlf, hu]
  | Integer n =>
    have hn : n < 2 ^ 64 := hv
    simp only [writeVal, Option.some.injEq] at hbs
    subst hbs
    rw [show (58 :: writeDecimal n) ++ rest = 58 :: (natDigits n ++ 13 :: 10 :: rest) from by
      simp [writeDecimal]]
    simp [parseF, getDecimal_writeDecimal hn rest]
  | Null =>
    simp only [writeVal, Option.some.injEq] at hbs
    subst hbs
    simp [parseF, peekU8, getLine, findCRLF]
  | Bulk b =>
    have hn : b.length < 2 ^ 64 := hv
    simp only [writeVal, Option.some.injEq] at hbs
    subst hbs
    obtain ⟨d, ds, hds⟩ := natDigits_cons b.length
    have hd48 := natDigits_digit d (hds ▸ List.mem_cons_self d ds)
    have hd45 : d ≠ 45 := by omega
    have hgd : getDecimal (d :: (ds ++ 13 :: 10 :: (b ++ 13 :: 10 :: rest)))
        = .ok b.length (b ++ 13 :: 10 :: rest) := by
      rw [show d :: (ds ++ 13 :: 10 :: (b ++ 13 :: 10 :: rest))
          = natDigits b.length ++ 13 :: 10 :: (b ++ 13 :: 10 :: rest) from by
        rw [hds]
        rfl]
      exact getDecimal_writeDecimal hn _
    have hni : ¬((b ++ 13 :: 10 :: rest).length < b.length + 2) := by
      simp only [List.length_append, List.length_cons]
      omega
    rw [show (36 :: (writeDecimal b.length ++ b ++ [13, 10])) ++ rest
        = 36 :: (d :: (ds ++ 13 :: 10 :: (b ++ 13 :: 10 :: rest))) from by
      rw [writeDecimal, hds]
      simp]
    simp only [parseF]
    show (if d = 45 then
        match getLine (d :: (ds ++ 13 :: 10 :: (b ++ 13 :: 10 :: rest))) with
        | some (line, r1) =>
          if line = [45, 49] then ParseRes.ok .Null r1 else ParseRes.protoErr
        | none => ParseRes.incomplete
      else
        match getDecimal (d :: (ds ++ 13 :: 10 :: (b ++ 13 :: 10 :: rest))) with
        | .ok n r1 =>
          if r1.length < n + 2 then ParseRes.incomplete
          else
            match skip r1 (n + 2) with
            | .ok rest2 => ParseRes.ok (.Bulk (r1.take n)) rest2
            | .incomplete => ParseRes.incomplete
            | _ => ParseRes.panic
        | .incomplete => ParseRes.incomplete
        | .protoErr => ParseRes.protoErr) = ParseRes.ok (.Bulk b) rest
    rw [if_neg hd45, hgd]
    show (if (b ++ 13 :: 10 :: rest).length < b.length + 2 then ParseRes.incomplete
      else
        match skip (b ++ 13 :: 10 :: rest) (b.length + 2) with
        | .ok rest2 => ParseRes.ok (.Bulk ((b ++ 13 :: 10 :: rest).take b.length)) rest2
        | .incomplete => ParseRes.incomplete
        | _ => ParseRes.panic) = ParseRes.ok (.Bulk b) rest
    rw [if_neg hni, skip_exact, take_exact]
  | Array l => exact absurd hv (by simp [GoodVal])

theorem parseN_writeVals (f : Nat) :
    ∀ (vs : List Frame), (∀ v ∈ vs, GoodVal v) →
      ∀ {body : List Nat}, writeVals vs = some body →
      ∀ rest, parseN (f + 1) vs.length (body ++ rest) = .ok (.Array vs) rest := by
  intro vs
  induction vs with
  | nil =>
    intro _ body hb rest
    simp only [writeVals, Option.some.injEq] at hb
    subst hb
    simp [parseN]
  | cons v vs' ih =>
    intro hg body hb rest
    rw [writeVals] at hb
    cases hwv : writeVal v with
    | none =>
      rw [hwv] at hb
      exact absurd hb (by simp)
    | some bv =>
      cases hwvs : writeVals vs' with
      | none =>
        rw [hwv, hwvs] at hb
        exact absurd hb (by simp)
      | some body' =>
        rw [hwv, hwvs] at hb
        simp only [Option.some.injEq] at hb
        subst hb
        simp only [List.length_cons, List.append_assoc, parseN,
          parseF_writeVal f (hg v (List.mem_cons_self _ _)) hwv,
          ih (fun u hu => hg u (List.mem_cons_of_mem _ hu)) hwvs]

theorem parseF_writeFrame (f : Nat) {v : Frame} (hv : GoodFrame v)
    {bs : List Nat} (henc : writeFrame v = some bs) (rest : List Nat) :
    parseF (f + 2) (bs ++ rest) = .ok v rest := by
  cases v with
  | Array l =>
    obtain ⟨hlen, hg⟩ := hv
    rw [writeFrame] at henc
    cases hwvs : writeVals l with
    | none =>
      rw [hwvs] at henc
      exact absurd henc (by simp)
    | some body =>
      rw [hwvs] at henc
      simp only [Option.some.injEq] at henc
      subst henc
      obtain ⟨d, ds, hds⟩ := natDigits_cons l.length
      have hd48 := natDigits_digit d (hds ▸ List.mem_cons_self d ds)
      have hd45 : d ≠ 45 := by omega
      have hgd : getDecimal (d :: (ds ++ 13 :: 10 :: (body ++ rest)))
          = .ok l.length (body ++ rest) := by
        rw [show d :: (ds ++ 13 :: 10 :: (body ++ rest))
            = natDigits l.length ++ 13 :: 10 :: (body ++ rest) from by
          rw [hds]
          rfl]
        exact getDecimal_writeDecimal hlen _
      rw [show (42 :: (writeDecimal l.length ++ body)) ++ rest
          = 42 :: (d :: (ds ++ 13 :: 10 :: (body ++ rest))) from by
        rw [writeDecimal, hds]
        simp]
      simp only [parseF]
      show (if d = 45 then
          match getLine (d :: (ds ++ 13 :: 10 :: (body ++ rest))) with
          | some (line, r1) =>
            if line = [45, 49] then ParseRes.ok .Null r1 else ParseRes.protoErr
          | none => ParseRes.incomplete
        else
          match getDecimal (d :: (ds ++ 13 :: 10 :: (body ++ rest))) with
          | .ok n r1 =>
            match parseN (f + 1) n r1 with
            | .ok (.Array l2) rest2 => ParseRes.ok (.Array l2) rest2
            | r => r
          | .incomplete => ParseRes.incomplete
          | .protoErr => ParseRes.protoErr) = ParseRes.ok (.Array l) rest
      rw [if_neg hd45, hgd]
      show (match parseN (f + 1) l.length (body ++ rest) with
        | ParseRes.ok (.Array l2) rest2 => ParseRes.ok (.Array l2) rest2
        | r => r) = ParseRes.ok (.Array l) rest
      rw [parseN_writeVals f l hg hwvs rest]
  | Simple s =>
    exact parseF_writeVal (f + 1) (show GoodVal (.Simple s) from hv) henc rest
  | Error s =>
    exact parseF_writeVal (f + 1) (show GoodVal (.Error s) from hv) henc rest
  | Integer n =>
    exact parseF_writeVal (f + 1) (show GoodVal (.Integer n) from hv) henc rest
  | Null =>
    exact parseF_writeVal (f + 1) (show GoodVal .Null from hv) henc rest
  | Bulk b =>
    exact parseF_writeVal (f + 1) (show GoodVal (.Bulk b) from hv) henc rest

theorem skip_ok {src : List Nat} {n : Nat} {r : List Nat}
    (h : skip src n = .ok r) : r = src.drop n := by
  cases src with
  | nil =>
    rw [skip] at h
    exact absurd h (by simp)
  | cons c cs =>
    rw [skip] at h
    by_cases hn : n ≤ (c :: cs).length
    · rw [if_pos hn] at h
      injection h with h1
      exact h1.symm
    · rw [if_neg hn] at h
      exact absurd h (by simp)

/-- The element loop of `parse` and of `check` consume the same bytes when
both succeed, given that single frames do (`hP`). -/
theorem parseN_checkN_rest (f : Nat)
    (hP : ∀ src rest, checkF f src = .ok rest →
      ∀ fr rest', parseF f src = .ok fr rest' → rest' = rest) :
    ∀ n src rest, checkN f n src = .ok rest →
      ∀ fr rest', parseN f n src = .ok fr rest' → rest' = rest := by
  intro n
  induction n with
  | zero =>
    intro src rest h1 fr rest' h2
    rw [checkN] at h1
    rw [parseN] at h2
    injection h1 with h1
    injection h2 with _ h2
    rw [← h2]
    exact h1
  | succ n ih =>
    intro src rest h1 fr rest' h2
    rw [checkN] at h1
    rw [parseN] at h2
    cases hcf : checkF f src with
    | ok r =>
      rw [hcf] at h1
      change checkN f n r = CheckRes.ok rest at h1
      cases hpf : parseF f src with
      | ok fr1 rest1 =>
        rw [hpf] at h2
        have hr1 : rest1 = r := hP src r hcf fr1 rest1 hpf
        subst hr1
        change (match parseN f n rest1 with
          | ParseRes.ok (.Array l) rest2 => ParseRes.ok (.Array (fr1 :: l)) rest2
          | r2 => r2) = ParseRes.ok fr rest' at h2
        cases hpn : parseN f n rest1 with
        | ok fr2 rest2 =>
          rw [hpn] at h2
          have hr2 : rest2 = rest' := by
            cases fr2 <;> injection h2
          rw [← hr2]
          exact ih rest1 rest h1 fr2 rest2 hpn
        | incomplete =>
          rw [hpn] at h2
          exact absurd h2 (by simp)
        | protoErr =>
          rw [hpn] at h2
          exact absurd h2 (by simp)
        | panic =>
          rw [hpn] at h2
          exact absurd h2 (by simp)
      | incomplete =>
        rw [hpf] at h2
        exact absurd h2 (by simp)
      | protoErr =>
        rw [hpf] at h2
        exact absurd h2 (by simp)
      | panic =>
        rw [hpf] at h2
        exact absurd h2 (by simp)
    | incomplete =>
      rw [hcf] at h1
      exact absurd h1 (by simp)
    | protoErr =>
      rw [hcf] at h1
      exact absurd h1 (by simp)
    | panic =>
      rw [hcf] at h1
      exact absurd h1 (by simp)

/-- When `check` succeeds on a window and `parse` also succeeds on the
same window with the same fuel, `parse` leaves exactly the suffix `check`
left — they consume the same bytes. -/
theorem checkF_parseF_rest :
    ∀ f src rest, checkF f src = .ok rest →
      ∀ fr rest', parseF f src = .ok fr rest' → rest' = rest := by
  intro f
  induction f with
  | zero =>
    intro src rest h1
    rw [checkF] at h1
    exact absurd h1 (by simp)
  | succ f ih =>
    intro src rest h1 fr rest' h2
    cases src with
    | nil =>
      rw [checkF] at h1
      exact absurd h1 (by simp)
    | cons b sub =>
      rw [checkF] at h1
      rw [parseF] at h2
      by_cases hb43 : b = 43
      · subst hb43
        change (match getLine sub with
          | some (_, r0) => CheckRes.ok r0
          | none => CheckRes.incomplete) = CheckRes.ok rest at h1
        change (match getLine sub with
          | some (line, r0) =>
            if utf8Valid line = true then ParseRes.ok (.Simple line) r0
            else ParseRes.protoErr
          | none => ParseRes.incomplete) = ParseRes.ok fr rest' at h2
        cases hgl : getLine sub with
        | none =>
          rw [hgl] at h1
          exact absurd h1 (by simp)
        | some p =>
          obtain ⟨line, r0⟩ := p
          rw [hgl] at h1 h2
          have h1' : r0 = rest := CheckRes.ok.inj h1
          change (if utf8Valid line = true then ParseRes.ok (.Simple line) r0
            else ParseRes.protoErr) = ParseRes.ok fr rest' at h2
          by_cases hu : utf8Valid line = true
          · rw [if_pos hu] at h2
            rw [← (ParseRes.ok.inj h2).2]
            exact h1'
          · rw [if_neg hu] at h2
            exact absurd h2 (by simp)
      · by_cases hb45 : b = 45
        · subst hb45
          change (match getLine sub with
            | some (_, r0) => CheckRes.ok r0
            | none => CheckRes.incomplete) = CheckRes.ok rest at h1
          change (match getLine sub with
            | some (line, r0) =>
              if utf8Valid line = true then ParseRes.ok (.Error line) r0
              else ParseRes.protoErr
            | none => ParseRes.incomplete) = ParseRes.ok fr rest' at h2
          cases hgl : getLine sub with
          | none =>
            rw [hgl] at h1
            exact absurd h1 (by simp)
          | some p =>
            obtain ⟨line, r0⟩ := p
            rw [hgl] at h1 h2
            have h1' : r0 = rest := CheckRes.ok.inj h1
            change (if utf8Valid line = true then ParseRes.ok (.Error line) r0
              else ParseRes.protoErr) = ParseRes.ok fr rest' at h2
            by_cases hu : utf8Valid line = true
            · rw [if_pos hu] at h2
              rw [← (ParseRes.ok.inj h2).2]
              exact h1'
            · rw [if_neg hu] at h2
              exact absurd h2 (by simp)
        · by_cases hb58 : b = 58
          · subst hb58
            change (match getDecimal sub with
              | DecRes.ok _ r0 => CheckRes.ok r0
              | DecRes.incomplete => CheckRes.incomplete
              | DecRes.protoErr => CheckRes.protoErr) = CheckRes.ok rest at h1
            change (match getDecimal sub with
              | DecRes.ok n r0 => ParseRes.ok (.Integer n) r0
              | DecRes.incomplete => ParseRes.incomplete
              | DecRes.protoErr => ParseRes.protoErr) = ParseRes.ok fr rest' at h2
            cases hgd : getDecimal sub with
            | ok n r1 =>
              rw [hgd] at h1 h2
              rw [← (ParseRes.ok.inj h2).2]
              exact CheckRes.ok.inj h1
            | incomplete =>
              rw [hgd] at h1
              exact absurd h1 (by simp)
            | protoErr =>
              rw [hgd] at h1
              exact absurd h1 (by simp)
          · by_cases hb36 : b = 36
            · subst hb36
              change (match peekU8 sub with
                | none => CheckRes.incomplete
                | some c =>
                  if c = 45 then skip sub 4
                  else
                    match getDecimal sub with
                    | DecRes.ok n r0 => skip r0 (n + 2)
                    | DecRes.incomplete => CheckRes.incomplete
                    | DecRes.protoErr => CheckRes.protoErr) = CheckRes.ok rest at h1
              change (match peekU8 sub with
                | none => ParseRes.incomplete
                | some c =>
                  if c = 45 then
                    match getLine sub with
                    | some (line, r0) =>
                      if line = [45, 49] then ParseRes.ok .Null r0
                      else ParseRes.protoErr
                    | none => ParseRes.incomplete
                  else
                    match getDecimal sub with
                    | DecRes.ok n r0 =>
                      if r0.length < n + 2 then ParseRes.incomplete
                      else
                        match skip r0 (n + 2) with
                        | CheckRes.ok rest2 => ParseRes.ok (.Bulk (r0.take n)) rest2
                        | CheckRes.incomplete => ParseRes.incomplete
                        | _ => ParseRes.panic
                    | DecRes.incomplete => ParseRes.incomplete
                    | DecRes.protoErr => ParseRes.protoErr)
                = ParseRes.ok fr rest' at h2
              cases hpk : peekU8 sub with
              | none =>
                rw [hpk] at h1
                exact absurd h1 (by simp)
              | some c =>
                rw [hpk] at h1 h2
                by_cases hc45 : c = 45
                · subst hc45
                  change skip sub 4 = CheckRes.ok rest at h1
                  change (match getLine sub with
                    | some (line, r0) =>
                      if line = [45, 49] then ParseRes.ok .Null r0
                      else ParseRes.protoErr
                    | none => ParseRes.incomplete) = ParseRes.ok fr rest' at h2
                  cases hgl : getLine sub with
                  | none =>
                    rw [hgl] at h2
                    exact absurd h2 (by simp)
                  | some p =>
                    obtain ⟨line, r0⟩ := p
                    rw [hgl] at h2
                    change (if line = [45, 49] then ParseRes.ok .Null r0
                      else ParseRes.protoErr) = ParseRes.ok fr rest' at h2
                    by_cases hline : line = [45, 49]
                    · rw [if_pos hline] at h2
                      have h2' : r0 = rest' := (ParseRes.ok.inj h2).2
                      have h1' : rest = sub.drop 4 := skip_ok h1
                      have hr0 : r0 = sub.drop 4 := by
                        have hgd := getLine_drop hgl
                        rw [hline] at hgd
                        simpa using hgd
                      rw [← h2', hr0, h1']
                    · rw [if_neg hline] at h2
                      exact absurd h2 (by simp)
                · change (if c = 45 then skip sub 4
                    else
                      match getDecimal sub with
                      | DecRes.ok n r0 => skip r0 (n + 2)
                      | DecRes.incomplete => CheckRes.incomplete
                      | DecRes.protoErr => CheckRes.protoErr) = CheckRes.ok rest at h1
                  change (if c = 45 then
                      match getLine sub with
                      | some (line, r0) =>
                        if line = [45, 49] then ParseRes.ok .Null r0
                        else ParseRes.protoErr
                      | none => ParseRes.incomplete
                    else
                      match getDecimal sub with
                      | DecRes.ok n r0 =>
                        if r0.length < n + 2 then ParseRes.incomplete
                        else
                          match skip r0 (n + 2) with
                          | CheckRes.ok rest2 => ParseRes.ok (.Bulk (r0.take n)) rest2
                          | CheckRes.incomplete => ParseRes.incomplete
                          | _ => ParseRes.panic
                      | DecRes.incomplete => ParseRes.incomplete
                      | DecRes.protoErr => ParseRes.protoErr)
                    = ParseRes.ok fr rest' at h2
                  rw [if_neg hc45] at h1 h2
                  cases hgd : getDecimal sub with
                  | ok n r1 =>
                    rw [hgd] at h1 h2
                    change skip r1 (n + 2) = CheckRes.ok rest at h1
                    change (if r1.length < n + 2 then ParseRes.incomplete
                      else
                        match skip r1 (n + 2) with
                        | CheckRes.ok rest2 => ParseRes.ok (.Bulk (r1.take n)) rest2
                        | CheckRes.incomplete => ParseRes.incomplete
                        | _ => ParseRes.panic) = ParseRes.ok fr rest' at h2
                    by_cases hlt : r1.length < n + 2
                    · rw [if_pos hlt] at h2
                      exact absurd h2 (by simp)
                    · rw [if_neg hlt, h1] at h2
                      exact ((ParseRes.ok.inj h2).2).symm
                  | incomplete =>
                    rw [hgd] at h1
                    exact absurd h1 (by simp)
                  | protoErr =>
                    rw [hgd] at h1
                    exact absurd h1 (by simp)
            · by_cases hb42 : b = 42
              · subst hb42
                change (match peekU8 sub with
                  | none => CheckRes.incomplete
                  | some c =>
                    if c = 45 then skip sub 4
                    else
                      match getDecimal sub with
                      | DecRes.ok n r0 => checkN f n r0
                      | DecRes.incomplete => CheckRes.incomplete
                      | DecRes.protoErr => CheckRes.protoErr) = CheckRes.ok rest at h1
                change (match peekU8 sub with
                  | none => ParseRes.incomplete
                  | some c =>
                    if c = 45 then
                      match getLine sub with
                      | some (line, r0) =>
                        if line = [45, 49] then ParseRes.ok .Null r0
                        else ParseRes.protoErr
                      | none => ParseRes.incomplete
                    else
                      match getDecimal sub with
                      | DecRes.ok n r0 =>
                        match parseN f n r0 with
                        | ParseRes.ok (.Array l) rest2 => ParseRes.ok (.Array l) rest2
                        | r => r
                      | DecRes.incomplete => ParseRes.incomplete
                      | DecRes.protoErr => ParseRes.protoErr)
                  = ParseRes.ok fr rest' at h2
                cases hpk : peekU8 sub with
                | none =>
                  rw [hpk] at h1
                  exact absurd h1 (by simp)
                | some c =>
                  rw [hpk] at h1 h2
                  by_cases hc45 : c = 45
                  · subst hc45
                    change skip sub 4 = CheckRes.ok rest at h1
                    change (match getLine sub with
                      | some (line, r0) =>
                        if line = [45, 49] then ParseRes.ok .Null r0
                        else ParseRes.protoErr
                      | none => ParseRes.incomplete) = ParseRes.ok fr rest' at h2
                    cases hgl : getLine sub with
                    | none =>
                      rw [hgl] at h2
                      exact absurd h2 (by simp)
                    | some p =>
                      obtain ⟨line, r0⟩ := p
                      rw [hgl] at h2
                      change (if line = [45, 49] then ParseRes.ok .Null r0
                        else ParseRes.protoErr) = ParseRes.ok fr rest' at h2
                      by_cases hline : line = [45, 49]
                      · rw [if_pos hline] at h2
                        have h2' : r0 = rest' := (ParseRes.ok.inj h2).2
                        have h1' : rest = sub.drop 4 := skip_ok h1
                        have hr0 : r0 = sub.drop 4 := by
                          have hgd := getLine_drop hgl
                          rw [hline] at hgd
                          simpa using hgd
                        rw [← h2', hr0, h1']
                      · rw [if_neg hline] at h2
                        exact absurd h2 (by simp)
                  · change (if c = 45 then skip sub 4
                      else
                        match getDecimal sub with
                        | DecRes.ok n r0 => checkN f n r0
                        | DecRes.incomplete => CheckRes.incomplete
                        | DecRes.protoErr => CheckRes.protoErr) = CheckRes.ok rest at h1
                    change (if c = 45 then
                        match getLine sub with
                        | some (line, r0) =>
                          if line = [45, 49] then ParseRes.ok .Null r0
                          else ParseRes.protoErr
                        | none => ParseRes.incomplete
                      else
                        match getDecimal sub with
                        | DecRes.ok n r0 =>
                          match parseN f n r0 with
                          | ParseRes.ok (.Array l) rest2 => ParseRes.ok (.Array l) rest2
                          | r => r
                        | DecRes.incomplete => ParseRes.incomplete
                        | DecRes.protoErr => ParseRes.protoErr)
                      = ParseRes.ok fr rest' at h2
                    rw [if_neg hc45] at h1 h2
                    cases hgd : getDecimal sub with
                    | ok n r1 =>
                      rw [hgd] at h1 h2
                      change checkN f n r1 = CheckRes.ok rest at h1
                      change (match parseN f n r1 with
                        | ParseRes.ok (.Array l) rest2 => ParseRes.ok (.Array l) rest2
                        | r => r) = ParseRes.ok fr rest' at h2
                      cases hpn : parseN f n r1 with
                      | ok fr2 rest2 =>
                        rw [hpn] at h2
                        have hr2 : rest' = rest2 := by
                          cases fr2 <;> exact ((ParseRes.ok.inj h2).2).symm
                        rw [hr2]
                        exact parseN_checkN_rest f ih n r1 rest h1 fr2 rest2 hpn
                      | incomplete =>
                        rw [hpn] at h2
                        exact absurd h2 (by simp)
                      | protoErr =>
                        rw [hpn] at h2
                        exact absurd h2 (by simp)
                      | panic =>
                        rw [hpn] at h2
                        exact absurd h2 (by simp)
                    | incomplete =>
                      rw [hgd] at h1
                      exact absurd h1 (by simp)
                    | protoErr =>
                      rw [hgd] at h1
                      exact absurd h1 (by simp)
              · rw [if_neg (by simp [hb43, hb45] : ¬(b = 43 ∨ b = 45)),
                  if_neg hb58, if_neg hb36, if_neg hb42] at h1
                exact absurd h1 (by simp)

theorem writeFrame_cons {v : Frame} {bs : List Nat} (henc : writeFrame v = some bs) :
    ∃ c cs, bs = c :: cs := by
  cases v with
  | Array l =>
    rw [writeFrame] at henc
    cases hwvs : writeVals l with
    | none =>
      rw [hwvs] at henc
      exact absurd henc (by simp)
    | some body =>
      rw [hwvs] at henc
      simp only [Option.some.injEq] at henc
      exact ⟨_, _, henc.symm⟩
  | Simple s =>
    simp only [writeFrame, writeVal, Option.some.injEq] at henc
    exact ⟨_, _, henc.symm⟩
  | Error s =>
    simp only [writeFrame, writeVal, Option.some.injEq] at henc
    exact ⟨_, _, henc.symm⟩
  | Integer n =>
    simp only [writeFrame, writeVal, Option.some.injEq] at henc
    exact ⟨_, _, henc.symm⟩
  | Null =>
    simp only [writeFrame, writeVal, Option.some.injEq] at henc
    exact ⟨_, _, henc.symm⟩
  | Bulk b =>
    simp only [writeFrame, writeVal, Option.some.injEq] at henc
    exact ⟨_, _, henc.symm⟩

end Frame

/-! ### Claim theorems -/

/-- C1: the claim says `RPush` on a key holding a list appends the items to
the stored list and replies the new length.  The code computes the reply
from a local clone and never writes the appended list back: starting from
the empty store, `RPush("k", [1, 2])` replies `Integer 2` and stores
`[1, 2]`; the second `RPush("k", [3])` replies `Integer 3` but leaves the
store — and in particular the list under `"k"` — completely unchanged,
contradicting the code's own doc comment ("appending the array items in
self.data to array corresponding to list_key key"). -/
theorem c1_rpush_reply_grows_but_store_unchanged :
    (Cmd.RPush.execute ⟨strB "k", [.Integer 1, .Integer 2]⟩ Db.empty 0).2
      = .Integer 2 ∧
    Db.get (Cmd.RPush.execute ⟨strB "k", [.Integer 1, .Integer 2]⟩ Db.empty 0).1
        (strB "k")
      = some (.Array [.Integer 1, .Integer 2]) ∧
    Cmd.RPush.execute ⟨strB "k", [.Integer 3]⟩
        (Cmd.RPush.execute ⟨strB "k", [.Integer 1, .Integer 2]⟩ Db.empty 0).1 5
      = ((Cmd.RPush.execute ⟨strB "k", [.Integer 1, .Integer 2]⟩ Db.empty 0).1,
          .Integer 3) :=
  ⟨rfl, rfl, rfl⟩

/-- C2: the claim (and the spec) says `check` on any strict prefix of a
valid encoding returns `Incomplete`.  On the 5-byte strict prefix of the
encoding of `Bulk "ab"` — a bulk frame whose declared length exceeds the
buffered payload — the code instead aborts: `skip` checks only
`has_remaining()` before `Buf::advance`, whose bound assertion fails. -/
theorem c2_check_panics_on_truncated_bulk :
    Frame.writeFrame (.Bulk [97, 98]) = some [36, 50, 13, 10, 97, 98, 13, 10] ∧
    Frame.check ([36, 50, 13, 10, 97, 98, 13, 10].take 5) = .panic ∧
    Frame.CheckRes.panic ≠ .incomplete := by
  refine ⟨rfl, ?_, by decide⟩
  show Frame.check [36, 50, 13, 10, 97] = .panic
  simp [Frame.check, Frame.checkF, Frame.getDecimal, Frame.getLine,
    Frame.findCRLF, Frame.atoi, Frame.digitsVal, Frame.isDigit, Frame.skip,
    Frame.peekU8]

/-- C3 counterexample: when the key holds a list, `Get::execute` does not
write the claimed reply frame
`Error("operation against a key holding the wrong kind of value")`; it
returns `Err("ERR Operation against a key holding the wrong kind of
value")` (capital `O`, `ERR ` prefix) and no reply frame is written. -/
theorem c3_get_list_counterexample :
    Cmd.Get.execute ⟨strB "k"⟩ ⟨[(strB "k", ⟨.Array [], none⟩)], [], false⟩
      = .error (strB "ERR Operation against a key holding the wrong kind of value") ∧
    Cmd.Get.execute ⟨strB "k"⟩ ⟨[(strB "k", ⟨.Array [], none⟩)], [], false⟩
      ≠ .ok (.Error (strB "operation against a key holding the wrong kind of value")) :=
  ⟨rfl, fun h => nomatch h⟩

/-- C3 (amended): `Get` replies `Null` when the key is absent, re-wraps
`Bytes`/`UTF8String` as `BulkBytes` and `Integer` as `Integer`; when the
key holds a list, `execute` returns the error
`"ERR Operation against a key holding the wrong kind of value"` to its
caller instead of writing an `Error` reply frame. -/
theorem c3_get_semantics (st : State) (k : List Nat) :
    (Db.get st k = none → Cmd.Get.execute ⟨k⟩ st = .ok .Null) ∧
    (∀ b, Db.get st k = some (.Bytes b) →
      Cmd.Get.execute ⟨k⟩ st = .ok (.Bulk b)) ∧
    (∀ s, Db.get st k = some (.String s) →
      Cmd.Get.execute ⟨k⟩ st = .ok (.Bulk s)) ∧
    (∀ i, Db.get st k = some (.Integer i) →
      Cmd.Get.execute ⟨k⟩ st = .ok (.Integer i)) ∧
    (∀ l, Db.get st k = some (.Array l) →
      Cmd.Get.execute ⟨k⟩ st
        = .error (strB "ERR Operation against a key holding the wrong kind of value")) := by
  refine ⟨fun h => ?_, fun b h => ?_, fun s h => ?_, fun i h => ?_, fun l h => ?_⟩ <;>
    · unfold Cmd.Get.execute
      rw [h]

/-- C3 witness: the amended theorem evaluated on the empty store (absent
key) and on a store holding an integer. -/
theorem c3_get_semantics_witness :
    Cmd.Get.execute ⟨strB "k"⟩ Db.empty = .ok .Null ∧
    Cmd.Get.execute ⟨strB "k"⟩ ⟨[(strB "k", ⟨.Integer 7, none⟩)], [], false⟩
      = .ok (.Integer 7) :=
  ⟨(c3_get_semantics Db.empty (strB "k")).1 rfl,
    (c3_get_semantics ⟨[(strB "k", ⟨.Integer 7, none⟩)], [], false⟩ (strB "k")).2.2.2.1 7 rfl⟩

/-- C7 counterexample: the claim says `EX` and `PX` are mutually exclusive
and a command carrying both is rejected.  The code stops parsing after the
first recognized option, so `SET k v EX 5 PX 100` is accepted with the
5-second TTL and the `PX` tokens are silently ignored. -/
theorem c7_set_parse_both_options_accepted :
    Cmd.Set.parse_frames [.Simple (strB "k"), .Bulk (strB "v"),
        .Simple (strB "EX"), .Integer 5, .Simple (strB "PX"), .Integer 100]
      = .ok ⟨strB "k", strB "v", some 5000⟩ :=
  rfl

/-- C7 (amended): after key and value, a TTL option is accepted as
`EX seconds` or `PX milliseconds` with a case-insensitive (ASCII) option
token; absence of any option means no expiration; an unrecognized first
trailing token is an error that terminates parsing; but parsing stops
right after a recognized option's integer, so all later tokens — including
the other TTL option — are ignored rather than rejected. -/
theorem c7_set_parse_ttl_options (k v s : List Nat) (n : Nat) (rest : List Frame) :
    (Cmd.Set.parse_frames [.Simple k, .Bulk v] = .ok ⟨k, v, none⟩) ∧
    (asciiUpper s = strB "EX" →
      Cmd.Set.parse_frames (.Simple k :: .Bulk v :: .Simple s :: .Integer n :: rest)
        = .ok ⟨k, v, some (1000 * n)⟩) ∧
    (asciiUpper s = strB "PX" →
      Cmd.Set.parse_frames (.Simple k :: .Bulk v :: .Simple s :: .Integer n :: rest)
        = .ok ⟨k, v, some n⟩) ∧
    (asciiUpper s ≠ strB "EX" → asciiUpper s ≠ strB "PX" →
      Cmd.Set.parse_frames (.Simple k :: .Bulk v :: .Simple s :: rest)
        = .error (strB "walrus only supports expiration option for `SET`")) := by
  refine ⟨rfl, fun h => ?_, fun h => ?_, fun h1 h2 => ?_⟩
  · simp [Cmd.Set.parse_frames, Parse.nextString, Parse.nextBytes, Parse.nextInt,
      Parse.next, h]
  · simp +decide [Cmd.Set.parse_frames, Parse.nextString, Parse.nextBytes,
      Parse.nextInt, Parse.next, h]
  · simp [Cmd.Set.parse_frames, Parse.nextString, Parse.nextBytes, Parse.nextInt,
      Parse.next, h1, h2]

/-- C7 witness: the amended theorem evaluated at the concrete frames
`SET k v Ex 5 PX 100` (mixed-case token, trailing second option). -/
theorem c7_set_parse_ttl_options_witness :
    Cmd.Set.parse_frames [.Simple (strB "k"), .Bulk (strB "v"),
        .Simple (strB "Ex"), .Integer 5, .Simple (strB "PX"), .Integer 100]
      = .ok ⟨strB "k", strB "v", some 5000⟩ :=
  (c7_set_parse_ttl_options (strB "k") (strB "v") (strB "Ex") 5
      [.Simple (strB "PX"), .Integer 100]).2.1 rfl

/-- C8: `RPush` against a key holding a non-list value replies `Integer 0`,
raises no error, and returns the store completely unchanged, so a
subsequent `Get` still sees the original value. -/
theorem c8_rpush_non_list_conflict (st : State) (k : List Nat)
    (items : List Data) (now : Nat) (e : Entry)
    (hl : Db.aLookup k st.entries = some e)
    (hna : ∀ l, e.data ≠ Data.Array l) :
    Cmd.RPush.execute ⟨k, items⟩ st now = (st, .Integer 0) ∧
    Db.get st k = some e.data := by
  have hg : Db.get st k = some e.data := by simp [Db.get, hl]
  refine ⟨?_, hg⟩
  unfold Cmd.RPush.execute
  rw [hg]
  rcases e with ⟨d, ex⟩
  cases d with
  | Array l => exact absurd rfl (hna l)
  | Bytes b => rfl
  | String s => rfl
  | Integer i => rfl

/-- C8 witness: `RPush` against a key set to a bytes value. -/
theorem c8_rpush_non_list_conflict_witness :
    Cmd.RPush.execute ⟨strB "k", [.Integer 1]⟩
        ⟨[(strB "k", ⟨.Bytes (strB "v"), none⟩)], [], false⟩ 0
      = (⟨[(strB "k", ⟨.Bytes (strB "v"), none⟩)], [], false⟩, .Integer 0) ∧
    Db.get ⟨[(strB "k", ⟨.Bytes (strB "v"), none⟩)], [], false⟩ (strB "k")
      = some (.Bytes (strB "v")) :=
  c8_rpush_non_list_conflict ⟨[(strB "k", ⟨.Bytes (strB "v"), none⟩)], [], false⟩
    (strB "k") [.Integer 1] 0 ⟨.Bytes (strB "v"), none⟩ rfl
    (fun _ h => nomatch h)

/-- C9 counterexample: the claim says the reply to an unknown command is
`Error("unknown command " + name)`.  For the frame `["FOO"]` the code
replies `Error("ERR unknown command foo")` — the message carries an
`ERR ` prefix the claim omits. -/
theorem c9_unknown_command_counterexample :
    Cmd.Command.from_frame (.Array [.Simple (strB "FOO")])
      = .ok (.Unknown (strB "foo")) ∧
    Cmd.Command.execute (.Unknown (strB "foo")) Db.empty 0
      = .ok (Db.empty, .Error (strB "ERR unknown command foo")) ∧
    strB "ERR unknown command foo" ≠ strB "unknown command foo" :=
  ⟨rfl, rfl, by decide⟩

/-- C9 (amended): a well-formed array frame whose first element is a
command name other than ping/set/get/rpush (compared case-insensitively;
ASCII) dispatches to `Unknown` carrying the lower-cased name, the reply
frame is `Error("ERR unknown command " + name)` with the name lower-cased,
and execution returns success, leaving the connection usable. -/
theorem c9_unknown_command_reply (name : List Nat) (rest : List Frame)
    (st : State) (now : Nat)
    (h1 : asciiLower name ≠ strB "ping") (h2 : asciiLower name ≠ strB "set")
    (h3 : asciiLower name ≠ strB "get") (h4 : asciiLower name ≠ strB "rpush") :
    Cmd.Command.from_frame (.Array (.Simple name :: rest))
      = .ok (.Unknown (asciiLower name)) ∧
    Cmd.Command.execute (.Unknown (asciiLower name)) st now
      = .ok (st, .Error (strB "ERR unknown command " ++ asciiLower name)) := by
  constructor
  · simp [Cmd.Command.from_frame, Parse.nextString, Parse.next, h1, h2, h3, h4]
  · rfl

/-- C6 counterexample: the claim says that whenever `check` succeeds,
`parse` at the same position also succeeds.  On the window "$-2\r\n",
`check` succeeds (the `-` peek makes it skip four bytes blindly) while
`parse` reads the line, finds it is not exactly "-1", and returns a
protocol error — parse does not succeed at all. -/
theorem c6_check_ok_parse_fails :
    Frame.check [36, 45, 50, 13, 10] = .ok [] ∧
    Frame.parse [36, 45, 50, 13, 10] = .protoErr := by
  constructor
  · simp [Frame.check, Frame.checkF, Frame.peekU8, Frame.skip]
  · simp [Frame.parse, Frame.parseF, Frame.peekU8, Frame.getLine, Frame.findCRLF]

/-- C6 (amended): `parse` started on a byte window on which `check`
succeeded need not succeed (it can report a malformed `$-`/`*-` marker or
invalid UTF-8 that `check` skipped over), but whenever it does succeed it
leaves the cursor exactly at `check`'s final position: parse consumes
exactly the bytes check consumed. -/
theorem c6_parse_consumes_like_check (src rest : List Nat)
    (hc : Frame.check src = .ok rest) (fr : Frame) (rest' : List Nat)
    (hp : Frame.parse src = .ok fr rest') : rest' = rest :=
  Frame.checkF_parseF_rest (src.length + 1) src rest hc fr rest' hp

/-- C6 witness: on "+a\r\n" followed by a stray byte, `check` stops after
the CRLF and a successful `parse` leaves the same suffix. -/
theorem c6_parse_consumes_like_check_witness :
    Frame.check [43, 97, 13, 10, 99] = .ok [99] ∧
    Frame.parse [43, 97, 13, 10, 99] = .ok (.Simple [97]) [99] ∧
    ([99] : List Nat) = [99] := by
  have hc : Frame.check [43, 97, 13, 10, 99] = .ok [99] := by
    simp [Frame.check, Frame.checkF, Frame.getLine, Frame.findCRLF]
  have hp : Frame.parse [43, 97, 13, 10, 99] = .ok (.Simple [97]) [99] := by
    simp only [Frame.parse, Frame.parseF, Frame.getLine, Frame.findCRLF]
    norm_num
    intro h
    exact absurd h (by decide)
  exact ⟨hc, hp,
    c6_parse_consumes_like_check [43, 97, 13, 10, 99] [99] hc (.Simple [97]) [99] hp⟩

/-- C5 counterexample: the round-trip claim quantifies over every
constructible frame, but a `Simple` whose text contains a CRLF — a
perfectly constructible Rust `String` — encodes to bytes whose first CRLF
ends the line early, so parsing returns a truncated frame with unconsumed
bytes left over: parse(encode(Simple "a\r\nb")) is Simple "a", not the
original value. -/
theorem c5_roundtrip_counterexample :
    Frame.writeFrame (.Simple [97, 13, 10, 98])
      = some [43, 97, 13, 10, 98, 13, 10] ∧
    Frame.parse [43, 97, 13, 10, 98, 13, 10] = .ok (.Simple [97]) [98, 13, 10] ∧
    Frame.Simple [97] ≠ .Simple [97, 13, 10, 98] := by
  refine ⟨rfl, ?_, by simp⟩
  simp only [Frame.parse, Frame.parseF, Frame.getLine, Frame.findCRLF]
  norm_num
  intro h
  exact absurd h (by decide)

/-- C5 (amended): the round-trip holds for every frame the encoder
supports invertibly: `Simple`/`Error` payloads free of CRLF (and valid
UTF-8, automatic for a Rust `String`), `u64`-sized numbers, and no array
nested inside an array (`write_val` aborts on those); for every such
frame, parsing its `write_frame` byte encoding returns exactly the frame
and consumes the whole encoding. -/
theorem c5_roundtrip_good (v : Frame) (hv : Frame.GoodFrame v)
    {bs : List Nat} (henc : Frame.writeFrame v = some bs) :
    Frame.parse bs = .ok v [] := by
  obtain ⟨c, cs, rfl⟩ := Frame.writeFrame_cons henc
  show Frame.parseF ((c :: cs).length + 1) (c :: cs) = .ok v []
  rw [show (c :: cs).length + 1 = cs.length + 2 from by simp]
  conv_lhs => rw [show c :: cs = (c :: cs) ++ [] from (List.append_nil _).symm]
  exact Frame.parseF_writeFrame cs.length hv henc []

/-- C5 witness: the amended round-trip evaluated on the array frame
`[Bulk [1, 2], Integer 7]`. -/
theorem c5_roundtrip_good_witness :
    Frame.parse [42, 50, 13, 10, 36, 50, 13, 10, 1, 2, 13, 10, 58, 55, 13, 10]
      = .ok (.Array [.Bulk [1, 2], .Integer 7]) [] :=
  c5_roundtrip_good (.Array [.Bulk [1, 2], .Integer 7])
    ⟨by norm_num, by
      intro u hu
      rcases List.mem_cons.mp hu with rfl | hu2
      · show ([1, 2] : List Nat).length < 2 ^ 64
        norm_num
      · rcases List.mem_cons.mp hu2 with rfl | hu3
        · show (7 : Nat) < 2 ^ 64
          norm_num
        · exact absurd hu3 (by simp)⟩
    rfl

/-- C4: the consistency invariant between `entries` and `expirations` —
every member of the expiration set is backed by an entry expiring at
exactly that instant, every entry deadline appears as a member, each
expiring key contributes exactly one member and no other members exist —
holds in every state reachable from the empty store through the
storage-engine operations (`set` with or without TTL, `get`, and the
reaper's purge step), because each operation preserves it. -/
theorem c4_expiration_consistency : ∀ st, Db.Reach st → Db.consistent st :=
  fun _ h => (Db.wf_reach h).2.2

/-- C4 witness: the invariant at a concrete reached state (a TTL insert
over an existing no-TTL binding, then a purge). -/
theorem c4_expiration_consistency_witness :
    Db.consistent
      (Db.purge
        (Db.set (Db.set Db.empty 1 (strB "k") (.Bytes (strB "v")) none).1
          3 (strB "k") (.Integer 7) (some 5)).1 4).1 :=
  c4_expiration_consistency _
    (Db.Reach.step_purge 4
      (Db.Reach.step_set 3 (strB "k") (.Integer 7) (some 5)
        (Db.Reach.step_set 1 (strB "k") (.Bytes (strB "v")) none Db.Reach.init)))

/-- C10: `Db::get` never consults `expires_at`: whenever the key is bound
to an entry, `get` returns the stored value — the result does not depend
on the entry's deadline, so it is returned even at times past the
deadline; the entry becomes invisible to `get` only once the reaper's
purge step (here run at any `now` past a deadline recorded in the
expiration set) has removed it from the map. -/
theorem c10_get_ignores_expiry (st : State) (k : List Nat) (e : Entry)
    (hl : Db.aLookup k st.entries = some e) :
    Db.get st k = some e.data ∧
    (∀ t now, e.expires_at = some t → t ≤ now →
      (t, k) ∈ st.expirations → Db.expSorted st.expirations →
      Db.get (Db.purge st now).1 k = none) := by
  constructor
  · simp [Db.get, hl]
  · intro t now _ hle hmem hs
    have h1 : Db.aLookup k (Db.purgeLoop now st.entries st.expirations).1 = none :=
      Db.purgeLoop_removes hle st.expirations st.entries hmem hs
    simp [Db.get, Db.purge_entries, h1]

/-- C10 witness: a key set at time 3 with TTL 5 is still visible to `get`
(the deadline is never consulted), and invisible after a purge at 9. -/
theorem c10_get_ignores_expiry_witness :
    Db.get (Db.set Db.empty 3 (strB "k") (.Bytes (strB "v")) (some 5)).1 (strB "k")
      = some (.Bytes (strB "v")) ∧
    Db.get (Db.purge
        (Db.set Db.empty 3 (strB "k") (.Bytes (strB "v")) (some 5)).1 9).1 (strB "k")
      = none :=
  ⟨(c10_get_ignores_expiry
      (Db.set Db.empty 3 (strB "k") (.Bytes (strB "v")) (some 5)).1
      (strB "k") ⟨.Bytes (strB "v"), some 8⟩ rfl).1,
    (c10_get_ignores_expiry
      (Db.set Db.empty 3 (strB "k") (.Bytes (strB "v")) (some 5)).1
      (strB "k") ⟨.Bytes (strB "v"), some 8⟩ rfl).2
      8 9 rfl (by decide) (by decide)
      (by unfold Db.expSorted; decide)⟩

/-- C9 witness: the amended theorem evaluated at the frame `["FOO"]`. -/
theorem c9_unknown_command_reply_witness :
    Cmd.Command.from_frame (.Array [.Simple (strB "FOO")])
      = .ok (.Unknown (asciiLower (strB "FOO"))) ∧
    Cmd.Command.execute (.Unknown (asciiLower (strB "FOO"))) Db.empty 0
      = .ok (Db.empty,
          .Error (strB "ERR unknown command " ++ asciiLower (strB "FOO"))) :=
  c9_unknown_command_reply (strB "FOO") [] Db.empty 0
    (by decide) (by decide) (by decide) (by decide)
